import Mathlib

set_option maxHeartbeats 1000000

/-!
Shallow embedding of the transaction stream merger.

Two implementations are embedded:
* the hardened variant (`getTransactionTimestamp`, `StreamMerger.takeN`):
  limit validation, a stall counter, and fatal errors on unparseable
  starknet/spark timestamps;
* the plain variant (`getTransactionTimestampR`, `takeNR`): no validation,
  no stall counter, unparseable timestamps silently become NaN.

JavaScript numbers relevant to merge keys are modelled by `MergeKey`
(finite integer, positive infinity, or NaN); `new Date(x).getTime()` is
modelled by a `DateField` carrying the raw string and its parse result
(`none` meaning NaN).  Streams are modelled as explicit traces: a list of
positions, each recording what `peek` returns there and what `next`
returns before advancing.  Each execution also produces an explicit log of
the `peek` and `next` calls issued, so that statements about stream I/O
can be made precise.
-/

/-- A JavaScript numeric merge key: a finite integer number of seconds,
positive infinity, or NaN. -/
inductive MergeKey
  | fin (n : Int)
  | inf
  | nan
deriving DecidableEq, Repr

/-- JavaScript `a > b` on merge keys (any comparison with NaN is false). -/
def mkGt : MergeKey → MergeKey → Bool
  | .nan, _ => false
  | _, .nan => false
  | .inf, .inf => false
  | .inf, .fin _ => true
  | .fin _, .inf => false
  | .fin a, .fin b => decide (b < a)

/-- JavaScript `a === b` on merge keys (NaN is not equal to anything). -/
def mkEq : MergeKey → MergeKey → Bool
  | .nan, _ => false
  | _, .nan => false
  | .inf, .inf => true
  | .inf, .fin _ => false
  | .fin _, .inf => false
  | .fin a, .fin b => decide (a = b)

/-- A date-valued field: the raw text and the result of
`new Date(raw).getTime()` in milliseconds (`none` when that is NaN). -/
structure DateField where
  raw : String
  parsed : Option Int
deriving DecidableEq, Repr

/-- The tagged union of transactions; only the timestamp-bearing fields are
modelled, as those are the only fields the merger reads. -/
inductive ResponseTransaction
  | bitcoin (blockTime : Option Int)
  | stacks (block_time : Option Int) (burn_block_time : Option Int)
  | starknet (blockTimestamp : DateField)
  | spark (createdAt : Option DateField)
deriving DecidableEq, Repr

/-- The stacks branch of the timestamp normalizer: confirmed block time if
numeric and positive, else burn-chain block time if numeric, else the
positive-infinity sentinel. -/
def stacksTimestamp (block_time burn_block_time : Option Int) : MergeKey :=
  match block_time with
  | some bt =>
    if 0 < bt then .fin bt
    else
      match burn_block_time with
      | some bbt => .fin bbt
      | none => .inf
  | none =>
    match burn_block_time with
    | some bbt => .fin bbt
    | none => .inf

/-- Timestamp normalizer of the hardened variant: malformed starknet/spark
date fields raise an error carrying the offending raw value. -/
def getTransactionTimestamp : ResponseTransaction → Except String MergeKey
  | .bitcoin blockTime => .ok (.fin (blockTime.getD 0))
  | .stacks block_time burn_block_time =>
    .ok (stacksTimestamp block_time burn_block_time)
  | .starknet blockTimestamp =>
    match blockTimestamp.parsed with
    | none =>
      .error ("Invalid blockTimestamp for starknet transaction: " ++ blockTimestamp.raw)
    | some ms => .ok (.fin (Int.fdiv ms 1000))
  | .spark createdAt =>
    match createdAt with
    | none => .ok (.fin 0)
    | some d =>
      match d.parsed with
      | none => .error ("Invalid createdAt for spark transaction: " ++ d.raw)
      | some ms => .ok (.fin (Int.fdiv ms 1000))

/-- Timestamp normalizer of the plain variant: malformed starknet/spark
date fields silently produce NaN (`Math.floor(NaN / 1000)` is NaN). -/
def getTransactionTimestampR : ResponseTransaction → MergeKey
  | .bitcoin blockTime => .fin (blockTime.getD 0)
  | .stacks block_time burn_block_time =>
    stacksTimestamp block_time burn_block_time
  | .starknet blockTimestamp =>
    match blockTimestamp.parsed with
    | none => .nan
    | some ms => .fin (Int.fdiv ms 1000)
  | .spark createdAt =>
    match createdAt with
    | none => .fin 0
    | some d =>
      match d.parsed with
      | none => .nan
      | some ms => .fin (Int.fdiv ms 1000)

/-- What a stream's `next()` returns: a done flag and an optional value. -/
structure NextResult where
  done : Bool
  value : Option ResponseTransaction
deriving DecidableEq, Repr

/-- One position of a stream trace: what `peek` reports there, and what
`next` returns before advancing past this position. -/
structure StreamStep where
  peekVal : Option ResponseTransaction
  nextRes : NextResult
deriving DecidableEq, Repr

/-- A stream is its remaining trace; past the end, `peek` reports nothing
and `next` reports completion. -/
abbrev TransactionStream := List StreamStep

/-- Observe the next item without consuming it. -/
def TransactionStream.peek : TransactionStream → Option ResponseTransaction
  | [] => none
  | step :: _ => step.peekVal

/-- Consume one position, returning its result and the advanced stream. -/
def TransactionStream.next : TransactionStream → NextResult × TransactionStream
  | [] => (⟨true, none⟩, [])
  | step :: rest => (step.nextRes, rest)

/-- An honest stream over a list of transactions: `peek` reports the head
and `next` delivers exactly the peeked item. -/
def TransactionStream.fromList (txs : List ResponseTransaction) : TransactionStream :=
  txs.map (fun tx => ⟨some tx, ⟨false, some tx⟩⟩)

/-- A JavaScript number in limit position: NaN, an infinity, or a finite
integer. -/
inductive JSLimit
  | nan
  | posInf
  | negInf
  | num (n : Int)
deriving DecidableEq, Repr

/-- JavaScript string conversion of a limit value. -/
def jsLimitToString : JSLimit → String
  | .nan => "NaN"
  | .posInf => "Infinity"
  | .negInf => "-Infinity"
  | .num n => toString n

/-- JavaScript `limit <= 0` (false for NaN). -/
def jsLe0 : JSLimit → Bool
  | .nan => false
  | .posInf => false
  | .negInf => true
  | .num n => decide (n ≤ 0)

/-- JavaScript `Number.isFinite(limit)`. -/
def jsIsFinite : JSLimit → Bool
  | .num _ => true
  | _ => false

/-- JavaScript `limit > 10000` (the maximum allowed limit). -/
def jsGtMax : JSLimit → Bool
  | .nan => false
  | .posInf => true
  | .negInf => false
  | .num n => decide (10000 < n)

/-- JavaScript `k < limit` for a result-count `k` (false for NaN). -/
def jsLtNat (k : Nat) : JSLimit → Bool
  | .nan => false
  | .posInf => true
  | .negInf => false
  | .num n => decide ((k : Int) < n)

/-- An observable stream operation: a `peek` or a `next` on a given stream
index, with the result it returned. -/
inductive Event
  | peek (idx : Nat) (res : Option ResponseTransaction)
  | next (idx : Nat) (res : NextResult)
deriving DecidableEq, Repr

/-- Peek every stream, tagging each result with its stream index starting
at `idx`; models the indexed fan-out of `peek` calls. -/
def peekAll : List TransactionStream → Nat → List (Option ResponseTransaction × Nat)
  | [], _ => []
  | s :: rest, idx => (TransactionStream.peek s, idx) :: peekAll rest (idx + 1)

/-- The log entries produced by one round of peeks. -/
def peekEvents (streams : List TransactionStream) : List Event :=
  (peekAll streams 0).map (fun p => Event.peek p.2 p.1)

/-- The available candidates of one round: peeked items that are present,
each paired with its stream index. -/
def availableOf (streams : List TransactionStream) :
    List (ResponseTransaction × Nat) :=
  (peekAll streams 0).filterMap (fun p => p.1.map (fun tx => (tx, p.2)))

/-- One step of the winner-selection reduce (hardened variant): the later
candidate wins on strictly greater key; on exact key equality the lower
stream index wins; timestamp errors propagate (the accumulated best's key
is evaluated before the current candidate's, as in the source). -/
def winnerStep (best curr : ResponseTransaction × Nat) :
    Except String (ResponseTransaction × Nat) :=
  match getTransactionTimestamp best.1 with
  | .error e => .error e
  | .ok bestTimestamp =>
    match getTransactionTimestamp curr.1 with
    | .error e => .error e
    | .ok currTimestamp =>
      if mkGt currTimestamp bestTimestamp then .ok curr
      else if mkEq currTimestamp bestTimestamp then
        .ok (if curr.2 < best.2 then curr else best)
      else .ok best

/-- JavaScript `reduce` over the remaining candidates, starting from an
accumulated best; a thrown timestamp error aborts the reduce. -/
def reduceWinner (best : ResponseTransaction × Nat) :
    List (ResponseTransaction × Nat) → Except String (ResponseTransaction × Nat)
  | [] => .ok best
  | c :: cs =>
    match winnerStep best c with
    | .error e => .error e
    | .ok best' => reduceWinner best' cs

/-- The winner-selection reduce (hardened variant) over the available
candidates; JavaScript `reduce` with no initial value starts from the
first element. -/
def selectWinner : List (ResponseTransaction × Nat) →
    Except String (ResponseTransaction × Nat)
  | [] => .error "Reduce of empty array with no initial value"
  | c :: cs => reduceWinner c cs

/-- One step of the winner-selection reduce of the plain variant (total,
NaN keys lose every comparison). -/
def winnerStepR (best curr : ResponseTransaction × Nat) :
    ResponseTransaction × Nat :=
  if mkGt (getTransactionTimestampR curr.1) (getTransactionTimestampR best.1) then curr
  else if mkEq (getTransactionTimestampR curr.1) (getTransactionTimestampR best.1) then
    (if curr.2 < best.2 then curr else best)
  else best

/-- The winner-selection reduce of the plain variant. -/
def selectWinnerR (av : List (ResponseTransaction × Nat)) :
    Option (ResponseTransaction × Nat) :=
  match av with
  | [] => none
  | c :: cs => some (cs.foldl winnerStepR c)

/-- Outcome of one merge round, before the append/empty bookkeeping. -/
inductive RoundResult
  | exhausted
  | stepped (res : NextResult) (streams : List TransactionStream) (winnerIdx : Nat)
deriving Repr

/-- One merge round of the hardened variant: peek all streams, filter the
available candidates, pick the winner, and consume one item from it.
Returns the outcome together with the stream operations issued. -/
def roundStep (streams : List TransactionStream) :
    Except String RoundResult × List Event :=
  match availableOf streams with
  | [] => (.ok .exhausted, peekEvents streams)
  | c :: cs =>
    match selectWinner (c :: cs) with
    | .error e => (.error e, peekEvents streams)
    | .ok winner =>
      let r := TransactionStream.next (streams.getD winner.2 [])
      (.ok (.stepped r.1 (streams.set winner.2 r.2) winner.2),
        peekEvents streams ++ [Event.next winner.2 r.1])

/-- One merge round of the plain variant. -/
def roundStepR (streams : List TransactionStream) :
    RoundResult × List Event :=
  match selectWinnerR (availableOf streams) with
  | none => (.exhausted, peekEvents streams)
  | some winner =>
    let r := TransactionStream.next (streams.getD winner.2 [])
    (.stepped r.1 (streams.set winner.2 r.2) winner.2,
      peekEvents streams ++ [Event.next winner.2 r.1])

/-- Total number of trace positions remaining across all streams; the
termination measure of the merge loop. -/
def sumLen (streams : List TransactionStream) : Nat :=
  (streams.map List.length).sum

theorem winnerStep_ok_or (best curr w : ResponseTransaction × Nat)
    (h : winnerStep best curr = .ok w) : w = best ∨ w = curr := by
  unfold winnerStep at h
  split at h
  · exact absurd h (by simp)
  · split at h
    · exact absurd h (by simp)
    · split at h
      · exact Or.inr (Except.ok.inj h).symm
      · split at h
        · split at h
          · exact Or.inr (Except.ok.inj h).symm
          · exact Or.inl (Except.ok.inj h).symm
        · exact Or.inl (Except.ok.inj h).symm

theorem reduceWinner_mem :
    ∀ (cs : List (ResponseTransaction × Nat)) (b w : ResponseTransaction × Nat),
      reduceWinner b cs = .ok w → w = b ∨ w ∈ cs := by
  intro cs
  induction cs with
  | nil =>
    intro b w h
    exact Or.inl (Except.ok.inj h).symm
  | cons c cs ih =>
    intro b w h
    rw [reduceWinner] at h
    split at h
    · exact absurd h (by simp)
    next b' hb =>
      rcases ih b' w h with h1 | h1
      · rcases winnerStep_ok_or b c b' hb with h2 | h2
        · exact Or.inl (h1.trans h2)
        · exact Or.inr (by rw [h1, h2]; exact List.mem_cons_self c cs)
      · exact Or.inr (List.mem_cons_of_mem c h1)

theorem peekAll_mem :
    ∀ (streams : List TransactionStream) (k : Nat)
      (p : Option ResponseTransaction × Nat), p ∈ peekAll streams k →
      ∃ j, j < streams.length ∧
        p = (TransactionStream.peek (streams.getD j []), k + j) := by
  intro streams
  induction streams with
  | nil => intro k p h; simp [peekAll] at h
  | cons s rest ih =>
    intro k p h
    rw [peekAll] at h
    rcases List.mem_cons.mp h with h1 | h1
    · exact ⟨0, by simp, by simpa using h1⟩
    · rcases ih (k + 1) p h1 with ⟨j, hj, hp⟩
      exact ⟨j + 1, by simpa using hj, by simpa [Nat.add_assoc, Nat.add_comm 1 j] using hp⟩

theorem availableOf_mem {streams : List TransactionStream}
    {p : ResponseTransaction × Nat} (h : p ∈ availableOf streams) :
    p.2 < streams.length ∧
      TransactionStream.peek (streams.getD p.2 []) = some p.1 := by
  unfold availableOf at h
  rcases List.mem_filterMap.mp h with ⟨q, hq, hmap⟩
  rcases peekAll_mem streams 0 q hq with ⟨j, hj, hpe⟩
  subst hpe
  simp only [Option.map_eq_some'] at hmap
  rcases hmap with ⟨tx', htx', heq⟩
  subst heq
  refine ⟨by simpa using hj, ?_⟩
  simpa using htx'

theorem sumLen_set_lt (streams : List TransactionStream) (i : Nat)
    (s' : TransactionStream) (hi : i < streams.length)
    (hlt : s'.length < (streams.getD i []).length) :
    sumLen (streams.set i s') < sumLen streams := by
  induction streams generalizing i with
  | nil => simp at hi
  | cons s rest ih =>
    cases i with
    | zero =>
      simp only [List.set_cons_zero, sumLen, List.map_cons, List.sum_cons]
      have : s'.length < s.length := by simpa using hlt
      omega
    | succ i =>
      simp only [List.set_cons_succ, sumLen, List.map_cons, List.sum_cons]
      have h2 := ih i (by simpa using hi) (by simpa using hlt)
      simp only [sumLen] at h2
      omega

theorem selectWinner_mem {av : List (ResponseTransaction × Nat)}
    {w : ResponseTransaction × Nat} (h : selectWinner av = .ok w) : w ∈ av := by
  cases av with
  | nil => exact absurd h (by simp [selectWinner])
  | cons c cs =>
    rw [selectWinner] at h
    rcases reduceWinner_mem cs c w h with h1 | h1
    · exact h1 ▸ List.mem_cons_self c cs
    · exact List.mem_cons_of_mem c h1

theorem roundStep_stepped_sumLen {streams : List TransactionStream}
    {r : NextResult} {streams' : List TransactionStream} {w : Nat}
    {evs : List Event}
    (h : roundStep streams = (.ok (.stepped r streams' w), evs)) :
    sumLen streams' < sumLen streams := by
  unfold roundStep at h
  split at h
  · simp at h
  next c cs hav =>
    split at h
    · simp at h
    next winner hw =>
      simp only [Prod.mk.injEq, Except.ok.injEq, RoundResult.stepped.injEq] at h
      obtain ⟨⟨hr, hs, hwi⟩, hevs⟩ := h
      have hmem : winner ∈ availableOf streams := hav ▸ selectWinner_mem hw
      obtain ⟨hlt, hpeek⟩ := availableOf_mem hmem
      subst hs
      apply sumLen_set_lt streams winner.2 _ hlt
      cases hst : streams.getD winner.2 [] with
      | nil => rw [hst] at hpeek; exact absurd hpeek (by simp [TransactionStream.peek])
      | cons st rest => simp [hst, TransactionStream.next]

theorem foldl_winnerStepR_mem :
    ∀ (cs : List (ResponseTransaction × Nat)) (b : ResponseTransaction × Nat),
      cs.foldl winnerStepR b = b ∨ cs.foldl winnerStepR b ∈ cs := by
  intro cs
  induction cs with
  | nil => intro b; exact Or.inl rfl
  | cons c cs ih =>
    intro b
    rw [List.foldl_cons]
    have hstep : winnerStepR b c = b ∨ winnerStepR b c = c := by
      unfold winnerStepR
      split
      · exact Or.inr rfl
      · split
        · split
          · exact Or.inr rfl
          · exact Or.inl rfl
        · exact Or.inl rfl
    rcases ih (winnerStepR b c) with h1 | h1
    · rcases hstep with h2 | h2
      · exact Or.inl (h1.trans h2)
      · exact Or.inr (by rw [h1, h2]; exact List.mem_cons_self c cs)
    · exact Or.inr (List.mem_cons_of_mem c h1)

theorem selectWinnerR_mem {av : List (ResponseTransaction × Nat)}
    {w : ResponseTransaction × Nat} (h : selectWinnerR av = some w) : w ∈ av := by
  cases av with
  | nil => exact absurd h (by simp [selectWinnerR])
  | cons c cs =>
    rw [selectWinnerR] at h
    obtain rfl := Option.some.inj h
    rcases foldl_winnerStepR_mem cs c with h1 | h1
    · rw [h1]; exact List.mem_cons_self c cs
    · exact List.mem_cons_of_mem c h1

theorem roundStepR_stepped_sumLen {streams : List TransactionStream}
    {r : NextResult} {streams' : List TransactionStream} {w : Nat}
    {evs : List Event}
    (h : roundStepR streams = (.stepped r streams' w, evs)) :
    sumLen streams' < sumLen streams := by
  unfold roundStepR at h
  split at h
  · simp at h
  next winner hw =>
    simp only [Prod.mk.injEq, RoundResult.stepped.injEq] at h
    obtain ⟨⟨hr, hs, hwi⟩, hevs⟩ := h
    have hmem : winner ∈ availableOf streams := selectWinnerR_mem hw
    obtain ⟨hlt, hpeek⟩ := availableOf_mem hmem
    subst hs
    apply sumLen_set_lt streams winner.2 _ hlt
    cases hst : streams.getD winner.2 [] with
    | nil => rw [hst] at hpeek; exact absurd hpeek (by simp [TransactionStream.peek])
    | cons st rest => simp [hst, TransactionStream.next]

/-- The merge loop of the hardened variant, carrying the collected
results, the consecutive-empty-round counter, and the operation log. -/
def takeNLoop (streams : List TransactionStream) (limit : JSLimit)
    (results : List ResponseTransaction) (emptyPeeksCount : Nat)
    (log : List Event) :
    Except String (List ResponseTransaction) × List Event :=
  if jsLtNat results.length limit then
    match h : roundStep streams with
    | (.error e, evs) => (.error e, log ++ evs)
    | (.ok .exhausted, evs) => (.ok results, log ++ evs)
    | (.ok (.stepped r streams' _), evs) =>
      match r with
      | ⟨false, some v⟩ => takeNLoop streams' limit (results ++ [v]) 0 (log ++ evs)
      | _ =>
        if 3 ≤ emptyPeeksCount + 1 then
          (.error "Stream returned empty results 3 times consecutively. Possible infinite loop detected.",
            log ++ evs)
        else
          takeNLoop streams' limit results (emptyPeeksCount + 1) (log ++ evs)
  else
    (.ok results, log)
termination_by sumLen streams
decreasing_by
  all_goals exact roundStep_stepped_sumLen h

/-- The merger of the hardened variant holds its fixed list of streams. -/
structure StreamMerger where
  streams : List TransactionStream
deriving Repr

/-- Construction of the hardened merger: rejects an absent or empty stream
list. -/
def StreamMerger.make (streams : Option (List TransactionStream)) :
    Except String StreamMerger :=
  match streams with
  | none => .error "StreamMerger requires at least one stream"
  | some s =>
    if s.length = 0 then .error "StreamMerger requires at least one stream"
    else .ok ⟨s⟩

/-- The hardened `takeN`: validates the limit, then runs the merge loop
from an empty result list, counter zero, and an empty log. -/
def StreamMerger.takeN (m : StreamMerger) (limit : JSLimit) :
    Except String (List ResponseTransaction) × List Event :=
  if jsLe0 limit || !jsIsFinite limit then
    (.error ("Invalid limit: " ++ jsLimitToString limit ++
      ". Must be a positive finite number."), [])
  else if jsGtMax limit then
    (.error ("Limit " ++ jsLimitToString limit ++
      " exceeds maximum allowed limit of 10000"), [])
  else
    takeNLoop m.streams limit [] 0 []

/-- The merge loop of the plain variant: no counter, no error channel. -/
def takeNLoopR (streams : List TransactionStream) (limit : JSLimit)
    (results : List ResponseTransaction) (log : List Event) :
    List ResponseTransaction × List Event :=
  if jsLtNat results.length limit then
    match h : roundStepR streams with
    | (.exhausted, evs) => (results, log ++ evs)
    | (.stepped r streams' _, evs) =>
      match r with
      | ⟨false, some v⟩ => takeNLoopR streams' limit (results ++ [v]) (log ++ evs)
      | _ => takeNLoopR streams' limit results (log ++ evs)
  else
    (results, log)
termination_by sumLen streams
decreasing_by
  all_goals exact roundStepR_stepped_sumLen h

/-- The plain `takeN`: no validation, straight into the loop. -/
def takeNR (streams : List TransactionStream) (limit : JSLimit) :
    List ResponseTransaction × List Event :=
  takeNLoopR streams limit [] []


theorem takeNLoop_stop (streams : List TransactionStream) (limit : JSLimit)
    (results : List ResponseTransaction) (ec : Nat) (log : List Event)
    (h : jsLtNat results.length limit = false) :
    takeNLoop streams limit results ec log = (.ok results, log) := by
  unfold takeNLoop
  simp [h]

theorem takeNLoop_error (streams : List TransactionStream) (limit : JSLimit)
    (results : List ResponseTransaction) (ec : Nat) (log : List Event)
    (e : String) (evs : List Event)
    (h1 : jsLtNat results.length limit = true)
    (h2 : roundStep streams = (.error e, evs)) :
    takeNLoop streams limit results ec log = (.error e, log ++ evs) := by
  conv_lhs => rw [takeNLoop]
  simp only [h1]
  rw [if_pos trivial]
  split
  next e' evs' heq => rw [h2] at heq; cases heq; rfl
  next evs' heq => rw [h2] at heq; cases heq
  next r s' w evs' heq => rw [h2] at heq; cases heq

theorem takeNLoop_exhausted (streams : List TransactionStream) (limit : JSLimit)
    (results : List ResponseTransaction) (ec : Nat) (log : List Event)
    (evs : List Event)
    (h1 : jsLtNat results.length limit = true)
    (h2 : roundStep streams = (.ok .exhausted, evs)) :
    takeNLoop streams limit results ec log = (.ok results, log ++ evs) := by
  conv_lhs => rw [takeNLoop]
  simp only [h1]
  rw [if_pos trivial]
  split
  next e' evs' heq => rw [h2] at heq; cases heq
  next evs' heq => rw [h2] at heq; cases heq; rfl
  next r s' w evs' heq => rw [h2] at heq; cases heq

theorem takeNLoop_append (streams streams' : List TransactionStream) (limit : JSLimit)
    (results : List ResponseTransaction) (ec : Nat) (log : List Event)
    (v : ResponseTransaction) (w : Nat) (evs : List Event)
    (h1 : jsLtNat results.length limit = true)
    (h2 : roundStep streams = (.ok (.stepped ⟨false, some v⟩ streams' w), evs)) :
    takeNLoop streams limit results ec log =
      takeNLoop streams' limit (results ++ [v]) 0 (log ++ evs) := by
  conv_lhs => rw [takeNLoop]
  simp only [h1]
  rw [if_pos trivial]
  split
  next e' evs' heq => rw [h2] at heq; cases heq
  next evs' heq => rw [h2] at heq; cases heq
  next r s' w' evs' heq => rw [h2] at heq; cases heq; rfl

theorem takeNLoop_empty_stall (streams streams' : List TransactionStream) (limit : JSLimit)
    (results : List ResponseTransaction) (ec : Nat) (log : List Event)
    (r : NextResult) (w : Nat) (evs : List Event)
    (h1 : jsLtNat results.length limit = true)
    (h2 : roundStep streams = (.ok (.stepped r streams' w), evs))
    (hr : r.done = true ∨ r.value = none)
    (hec : 3 ≤ ec + 1) :
    takeNLoop streams limit results ec log =
      (.error "Stream returned empty results 3 times consecutively. Possible infinite loop detected.",
        log ++ evs) := by
  conv_lhs => rw [takeNLoop]
  simp only [h1]
  rw [if_pos trivial]
  split
  next e' evs' heq => rw [h2] at heq; cases heq
  next evs' heq => rw [h2] at heq; cases heq
  next r' s' w' evs' heq =>
    rw [h2] at heq; cases heq
    split
    · simp at hr
    · rw [if_pos hec]

theorem takeNLoop_empty_cont (streams streams' : List TransactionStream) (limit : JSLimit)
    (results : List ResponseTransaction) (ec : Nat) (log : List Event)
    (r : NextResult) (w : Nat) (evs : List Event)
    (h1 : jsLtNat results.length limit = true)
    (h2 : roundStep streams = (.ok (.stepped r streams' w), evs))
    (hr : r.done = true ∨ r.value = none)
    (hec : ¬ 3 ≤ ec + 1) :
    takeNLoop streams limit results ec log =
      takeNLoop streams' limit results (ec + 1) (log ++ evs) := by
  conv_lhs => rw [takeNLoop]
  simp only [h1]
  rw [if_pos trivial]
  split
  next e' evs' heq => rw [h2] at heq; cases heq
  next evs' heq => rw [h2] at heq; cases heq
  next r' s' w' evs' heq =>
    rw [h2] at heq; cases heq
    split
    · simp at hr
    · rw [if_neg hec]

theorem takeNLoopR_stop (streams : List TransactionStream) (limit : JSLimit)
    (results : List ResponseTransaction) (log : List Event)
    (h : jsLtNat results.length limit = false) :
    takeNLoopR streams limit results log = (results, log) := by
  unfold takeNLoopR
  simp [h]

theorem takeNLoopR_exhausted (streams : List TransactionStream) (limit : JSLimit)
    (results : List ResponseTransaction) (log : List Event) (evs : List Event)
    (h1 : jsLtNat results.length limit = true)
    (h2 : roundStepR streams = (.exhausted, evs)) :
    takeNLoopR streams limit results log = (results, log ++ evs) := by
  conv_lhs => rw [takeNLoopR]
  simp only [h1]
  rw [if_pos trivial]
  split
  next evs' heq => rw [h2] at heq; cases heq; rfl
  next r s' w evs' heq => rw [h2] at heq; cases heq

theorem takeNLoopR_append (streams streams' : List TransactionStream) (limit : JSLimit)
    (results : List ResponseTransaction) (log : List Event)
    (v : ResponseTransaction) (w : Nat) (evs : List Event)
    (h1 : jsLtNat results.length limit = true)
    (h2 : roundStepR streams = (.stepped ⟨false, some v⟩ streams' w, evs)) :
    takeNLoopR streams limit results log =
      takeNLoopR streams' limit (results ++ [v]) (log ++ evs) := by
  conv_lhs => rw [takeNLoopR]
  simp only [h1]
  rw [if_pos trivial]
  split
  next evs' heq => rw [h2] at heq; cases heq
  next r s' w' evs' heq => rw [h2] at heq; cases heq; rfl

theorem takeNLoopR_empty (streams streams' : List TransactionStream) (limit : JSLimit)
    (results : List ResponseTransaction) (log : List Event)
    (r : NextResult) (w : Nat) (evs : List Event)
    (h1 : jsLtNat results.length limit = true)
    (h2 : roundStepR streams = (.stepped r streams' w, evs))
    (hr : r.done = true ∨ r.value = none) :
    takeNLoopR streams limit results log =
      takeNLoopR streams' limit results (log ++ evs) := by
  conv_lhs => rw [takeNLoopR]
  simp only [h1]
  rw [if_pos trivial]
  split
  next evs' heq => rw [h2] at heq; cases heq
  next r' s' w' evs' heq =>
    rw [h2] at heq; cases heq
    split
    · simp at hr
    · rfl


/-- Embedding of non-NaN merge keys into the linear order of integers with
a top element (the infinity sentinel). -/
def MergeKey.toW : MergeKey → WithTop Int
  | .fin n => (n : WithTop Int)
  | .inf => ⊤
  | .nan => ⊤

theorem mkGt_iff {j k : MergeKey} (hj : j ≠ .nan) (hk : k ≠ .nan) :
    mkGt j k = true ↔ MergeKey.toW k < MergeKey.toW j := by
  cases j <;> cases k <;>
    simp_all [mkGt, MergeKey.toW, WithTop.coe_lt_top, WithTop.coe_lt_coe]

theorem mkGt_false_iff {j k : MergeKey} (hj : j ≠ .nan) (hk : k ≠ .nan) :
    mkGt j k = false ↔ MergeKey.toW j ≤ MergeKey.toW k := by
  rw [← not_lt, ← mkGt_iff hj hk]
  cases mkGt j k <;> simp

theorem mkEq_iff {j k : MergeKey} (hj : j ≠ .nan) (hk : k ≠ .nan) :
    mkEq j k = true ↔ MergeKey.toW j = MergeKey.toW k := by
  cases j <;> cases k <;>
    simp_all [mkEq, MergeKey.toW, WithTop.coe_eq_coe]

theorem stacksTimestamp_ne_nan (bt bbt : Option Int) :
    stacksTimestamp bt bbt ≠ .nan := by
  unfold stacksTimestamp
  cases bt with
  | some n =>
    cases bbt with
    | none =>
      show (if 0 < n then MergeKey.fin n else MergeKey.inf) ≠ MergeKey.nan
      split <;> simp
    | some m =>
      show (if 0 < n then MergeKey.fin n else MergeKey.fin m) ≠ MergeKey.nan
      split <;> simp
  | none => cases bbt <;> simp

theorem getTransactionTimestamp_ne_nan {tx : ResponseTransaction} {k : MergeKey}
    (h : getTransactionTimestamp tx = .ok k) : k ≠ .nan := by
  unfold getTransactionTimestamp at h
  split at h
  · cases Except.ok.inj h; simp
  · cases Except.ok.inj h; apply stacksTimestamp_ne_nan
  · split at h
    · exact absurd h (by simp)
    · cases Except.ok.inj h; simp
  · split at h
    · cases Except.ok.inj h; simp
    · split at h
      · exact absurd h (by simp)
      · cases Except.ok.inj h; simp


theorem winnerStep_gt {b c : ResponseTransaction × Nat} {kb kc : MergeKey}
    (hb : getTransactionTimestamp b.1 = .ok kb)
    (hc : getTransactionTimestamp c.1 = .ok kc)
    (hgt : mkGt kc kb = true) : winnerStep b c = .ok c := by
  unfold winnerStep
  rw [hb, hc]
  simp [hgt]

theorem winnerStep_eq {b c : ResponseTransaction × Nat} {kb kc : MergeKey}
    (hb : getTransactionTimestamp b.1 = .ok kb)
    (hc : getTransactionTimestamp c.1 = .ok kc)
    (hgt : mkGt kc kb = false) (heq : mkEq kc kb = true) :
    winnerStep b c = .ok (if c.2 < b.2 then c else b) := by
  unfold winnerStep
  rw [hb, hc]
  simp [hgt, heq]

theorem winnerStep_lt {b c : ResponseTransaction × Nat} {kb kc : MergeKey}
    (hb : getTransactionTimestamp b.1 = .ok kb)
    (hc : getTransactionTimestamp c.1 = .ok kc)
    (hgt : mkGt kc kb = false) (heq : mkEq kc kb = false) :
    winnerStep b c = .ok b := by
  unfold winnerStep
  rw [hb, hc]
  simp [hgt, heq]

theorem reduceWinner_spec :
    ∀ (cs : List (ResponseTransaction × Nat)) (b : ResponseTransaction × Nat)
      (kb : MergeKey), getTransactionTimestamp b.1 = .ok kb →
      (∀ c ∈ cs, ∃ k, getTransactionTimestamp c.1 = .ok k) →
      ∃ w kw, reduceWinner b cs = .ok w ∧ getTransactionTimestamp w.1 = .ok kw ∧
        (w = b ∨ w ∈ cs) ∧
        (∀ c, (c = b ∨ c ∈ cs) → ∀ kc, getTransactionTimestamp c.1 = .ok kc →
          MergeKey.toW kc ≤ MergeKey.toW kw ∧
          (MergeKey.toW kc = MergeKey.toW kw → w.2 ≤ c.2)) := by
  intro cs
  induction cs with
  | nil =>
    intro b kb hb _
    refine ⟨b, kb, rfl, hb, Or.inl rfl, ?_⟩
    rintro c (rfl | hc) kc hkc
    · rw [hb] at hkc; cases Except.ok.inj hkc
      exact ⟨le_refl _, fun _ => le_refl _⟩
    · exact absurd hc (by simp)
  | cons c cs ih =>
    intro b kb hb hall
    obtain ⟨kc, hkc⟩ := hall c (List.mem_cons_self c cs)
    have hall' : ∀ x ∈ cs, ∃ k, getTransactionTimestamp x.1 = .ok k :=
      fun x hx => hall x (List.mem_cons_of_mem c hx)
    have hbn : kb ≠ .nan := getTransactionTimestamp_ne_nan hb
    have hcn : kc ≠ .nan := getTransactionTimestamp_ne_nan hkc
    by_cases hgt : mkGt kc kb = true
    · have hlt : MergeKey.toW kb < MergeKey.toW kc := (mkGt_iff hcn hbn).mp hgt
      have hred : reduceWinner b (c :: cs) = reduceWinner c cs := by
        rw [reduceWinner, winnerStep_gt hb hkc hgt]
      obtain ⟨w, kw, hw, hkw, hmem, hbound⟩ := ih c kc hkc hall'
      refine ⟨w, kw, hred ▸ hw, hkw, ?_, ?_⟩
      · rcases hmem with rfl | hm
        · exact Or.inr (List.mem_cons_self _ _)
        · exact Or.inr (List.mem_cons_of_mem c hm)
      · rintro c0 (rfl | hc0) kc0 hkc0
        · rw [hb] at hkc0; cases Except.ok.inj hkc0
          obtain ⟨h1, _⟩ := hbound c (Or.inl rfl) kc hkc
          refine ⟨le_of_lt (lt_of_lt_of_le hlt h1), fun heq => ?_⟩
          exact absurd heq (ne_of_lt (lt_of_lt_of_le hlt h1))
        · rcases List.mem_cons.mp hc0 with rfl | hc0a
          · exact hbound _ (Or.inl rfl) kc0 hkc0
          · exact hbound _ (Or.inr hc0a) kc0 hkc0
    · replace hgt : mkGt kc kb = false := by
        cases h : mkGt kc kb
        · rfl
        · exact absurd h hgt
      have hle : MergeKey.toW kc ≤ MergeKey.toW kb := (mkGt_false_iff hcn hbn).mp hgt
      by_cases heq : mkEq kc kb = true
      · have heqW : MergeKey.toW kc = MergeKey.toW kb := (mkEq_iff hcn hbn).mp heq
        by_cases hidx : c.2 < b.2
        · have hred : reduceWinner b (c :: cs) = reduceWinner c cs := by
            rw [reduceWinner, winnerStep_eq hb hkc hgt heq, if_pos hidx]
          obtain ⟨w, kw, hw, hkw, hmem, hbound⟩ := ih c kc hkc hall'
          refine ⟨w, kw, hred ▸ hw, hkw, ?_, ?_⟩
          · rcases hmem with rfl | hm
            · exact Or.inr (List.mem_cons_self _ _)
            · exact Or.inr (List.mem_cons_of_mem c hm)
          · rintro c0 (rfl | hc0) kc0 hkc0
            · rw [hb] at hkc0; cases Except.ok.inj hkc0
              obtain ⟨h1, h2⟩ := hbound c (Or.inl rfl) kc hkc
              refine ⟨heqW ▸ h1, fun hkbw => ?_⟩
              exact le_trans (h2 (heqW.symm ▸ hkbw)) (le_of_lt hidx)
            · rcases List.mem_cons.mp hc0 with rfl | hc0a
              · exact hbound _ (Or.inl rfl) kc0 hkc0
              · exact hbound _ (Or.inr hc0a) kc0 hkc0
        · have hred : reduceWinner b (c :: cs) = reduceWinner b cs := by
            rw [reduceWinner, winnerStep_eq hb hkc hgt heq, if_neg hidx]
          obtain ⟨w, kw, hw, hkw, hmem, hbound⟩ := ih b kb hb hall'
          refine ⟨w, kw, hred ▸ hw, hkw, ?_, ?_⟩
          · rcases hmem with rfl | hm
            · exact Or.inl rfl
            · exact Or.inr (List.mem_cons_of_mem c hm)
          · rintro c0 (rfl | hc0) kc0 hkc0
            · exact hbound c0 (Or.inl rfl) kc0 hkc0
            · rcases List.mem_cons.mp hc0 with rfl | hc0'
              · rw [hkc] at hkc0; cases Except.ok.inj hkc0
                obtain ⟨h1, h2⟩ := hbound b (Or.inl rfl) kb hb
                refine ⟨heqW ▸ h1, fun hkcw => ?_⟩
                exact le_trans (h2 (heqW ▸ hkcw)) (not_lt.mp hidx)
              · exact hbound c0 (Or.inr hc0') kc0 hkc0
      · replace heq : mkEq kc kb = false := by
          cases h : mkEq kc kb
          · rfl
          · exact absurd h heq
        have hne : MergeKey.toW kc ≠ MergeKey.toW kb := fun h =>
          by rw [(mkEq_iff hcn hbn).mpr h] at heq; cases heq
        have hltW : MergeKey.toW kc < MergeKey.toW kb := lt_of_le_of_ne hle hne
        have hred : reduceWinner b (c :: cs) = reduceWinner b cs := by
          rw [reduceWinner, winnerStep_lt hb hkc hgt heq]
        obtain ⟨w, kw, hw, hkw, hmem, hbound⟩ := ih b kb hb hall'
        refine ⟨w, kw, hred ▸ hw, hkw, ?_, ?_⟩
        · rcases hmem with rfl | hm
          · exact Or.inl rfl
          · exact Or.inr (List.mem_cons_of_mem c hm)
        · rintro c0 (rfl | hc0) kc0 hkc0
          · exact hbound c0 (Or.inl rfl) kc0 hkc0
          · rcases List.mem_cons.mp hc0 with rfl | hc0'
            · rw [hkc] at hkc0; cases Except.ok.inj hkc0
              obtain ⟨h1, _⟩ := hbound b (Or.inl rfl) kb hb
              refine ⟨le_of_lt (lt_of_lt_of_le hltW h1), fun hkcw => ?_⟩
              exact absurd hkcw (ne_of_lt (lt_of_lt_of_le hltW h1))
            · exact hbound c0 (Or.inr hc0') kc0 hkc0

theorem selectWinner_keys_spec {av : List (ResponseTransaction × Nat)}
    (hne : av ≠ [])
    (hkeys : ∀ c ∈ av, ∃ k, getTransactionTimestamp c.1 = .ok k) :
    ∃ w kw, selectWinner av = .ok w ∧ getTransactionTimestamp w.1 = .ok kw ∧
      w ∈ av ∧
      (∀ c ∈ av, ∀ kc, getTransactionTimestamp c.1 = .ok kc →
        MergeKey.toW kc ≤ MergeKey.toW kw ∧
        (MergeKey.toW kc = MergeKey.toW kw → w.2 ≤ c.2)) := by
  cases av with
  | nil => exact absurd rfl hne
  | cons c cs =>
    obtain ⟨kc, hkc⟩ := hkeys c (List.mem_cons_self c cs)
    obtain ⟨w, kw, hw, hkw, hmem, hbound⟩ :=
      reduceWinner_spec cs c kc hkc
        (fun x hx => hkeys x (List.mem_cons_of_mem c hx))
    refine ⟨w, kw, hw, hkw, ?_, ?_⟩
    · rcases hmem with rfl | hm
      · exact List.mem_cons_self _ _
      · exact List.mem_cons_of_mem c hm
    · intro c0 hc0 kc0 hkc0
      rcases List.mem_cons.mp hc0 with rfl | hc0'
      · exact hbound c0 (Or.inl rfl) kc0 hkc0
      · exact hbound c0 (Or.inr hc0') kc0 hkc0


theorem roundStep_of_exhausted {streams : List TransactionStream}
    (h : availableOf streams = []) :
    roundStep streams = (.ok .exhausted, peekEvents streams) := by
  unfold roundStep
  rw [h]

theorem roundStep_of_winner {streams : List TransactionStream}
    {c : ResponseTransaction × Nat} {cs : List (ResponseTransaction × Nat)}
    {winner : ResponseTransaction × Nat}
    (h : availableOf streams = c :: cs)
    (hw : selectWinner (c :: cs) = .ok winner) :
    roundStep streams =
      (.ok (.stepped (TransactionStream.next (streams.getD winner.2 [])).1
        (streams.set winner.2 (TransactionStream.next (streams.getD winner.2 [])).2)
        winner.2),
       peekEvents streams ++
         [Event.next winner.2 (TransactionStream.next (streams.getD winner.2 [])).1]) := by
  unfold roundStep
  rw [h]
  simp [hw]

theorem roundStep_of_error {streams : List TransactionStream}
    {c : ResponseTransaction × Nat} {cs : List (ResponseTransaction × Nat)}
    {e : String}
    (h : availableOf streams = c :: cs)
    (hw : selectWinner (c :: cs) = .error e) :
    roundStep streams = (.error e, peekEvents streams) := by
  unfold roundStep
  rw [h]
  simp [hw]

theorem roundStep_stepped_inv {streams : List TransactionStream}
    {r : NextResult} {streams' : List TransactionStream} {w : Nat}
    {evs : List Event}
    (h : roundStep streams = (.ok (.stepped r streams' w), evs)) :
    ∃ winner : ResponseTransaction × Nat,
      selectWinner (availableOf streams) = .ok winner ∧ winner.2 = w ∧
      winner ∈ availableOf streams ∧
      r = (TransactionStream.next (streams.getD w [])).1 ∧
      streams' = streams.set w (TransactionStream.next (streams.getD w [])).2 ∧
      evs = peekEvents streams ++ [Event.next w r] := by
  unfold roundStep at h
  split at h
  · simp at h
  next c cs hav =>
    split at h
    · simp at h
    next winner hw =>
      simp only [Prod.mk.injEq, Except.ok.injEq, RoundResult.stepped.injEq] at h
      obtain ⟨⟨hr, hs, hwi⟩, hevs⟩ := h
      subst hwi
      refine ⟨winner, hav ▸ hw, rfl, hav ▸ selectWinner_mem hw, hr.symm, hs.symm, ?_⟩
      rw [← hevs, hr]

theorem roundStep_exhausted_inv {streams : List TransactionStream}
    {evs : List Event}
    (h : roundStep streams = (.ok .exhausted, evs)) :
    availableOf streams = [] ∧ evs = peekEvents streams := by
  unfold roundStep at h
  split at h
  next hav =>
    simp only [Prod.mk.injEq] at h
    exact ⟨hav, h.2.symm⟩
  next c cs hav =>
    split at h
    · simp at h
    · simp at h

theorem peekAll_complete :
    ∀ (streams : List TransactionStream) (k i : Nat), i < streams.length →
      (TransactionStream.peek (streams.getD i []), k + i) ∈ peekAll streams k := by
  intro streams
  induction streams with
  | nil => intro k i hi; simp at hi
  | cons s rest ih =>
    intro k i hi
    cases i with
    | zero => rw [peekAll]; exact List.mem_cons_self _ _
    | succ i =>
      rw [peekAll]
      refine List.mem_cons_of_mem _ ?_
      have := ih (k + 1) i (by simpa using hi)
      simpa [Nat.add_assoc, Nat.add_comm 1 i] using this

theorem availableOf_complete {streams : List TransactionStream}
    {tx : ResponseTransaction} {i : Nat} (hi : i < streams.length)
    (hp : TransactionStream.peek (streams.getD i []) = some tx) :
    (tx, i) ∈ availableOf streams := by
  unfold availableOf
  refine List.mem_filterMap.mpr ⟨(TransactionStream.peek (streams.getD i []), i), ?_, ?_⟩
  · simpa using peekAll_complete streams 0 i hi
  · rw [hp]; rfl

theorem availableOf_eq_nil {streams : List TransactionStream}
    (h : ∀ s ∈ streams, TransactionStream.peek s = none) :
    availableOf streams = [] := by
  unfold availableOf
  rw [List.filterMap_eq_nil_iff]
  intro p hp
  rcases peekAll_mem streams 0 p hp with ⟨j, hj, rfl⟩
  have : streams.getD j [] ∈ streams := by
    rw [List.getD_eq_getElem streams [] hj]
    exact List.getElem_mem hj
  rw [h _ this]
  rfl

theorem fromList_peek (txs : List ResponseTransaction) :
    TransactionStream.peek (TransactionStream.fromList txs) = txs.head? := by
  cases txs <;> rfl

theorem fromList_next (t : ResponseTransaction) (ts : List ResponseTransaction) :
    TransactionStream.next (TransactionStream.fromList (t :: ts)) =
      (⟨false, some t⟩, TransactionStream.fromList ts) := rfl

theorem getD_map_fromList {txss : List (List ResponseTransaction)} {j : Nat}
    (hj : j < txss.length) :
    (txss.map TransactionStream.fromList).getD j [] =
      TransactionStream.fromList (txss.getD j []) := by
  rw [List.getD_eq_getElem _ [] (by simpa using hj), List.getD_eq_getElem _ [] hj]
  simp


theorem winnerStep_ok_keys {b c r : ResponseTransaction × Nat}
    (h : winnerStep b c = .ok r) :
    (∃ kb, getTransactionTimestamp b.1 = .ok kb) ∧
    (∃ kc, getTransactionTimestamp c.1 = .ok kc) := by
  unfold winnerStep at h
  split at h
  · exact absurd h (by simp)
  next kb hb =>
    split at h
    · exact absurd h (by simp)
    next kc hc => exact ⟨⟨kb, hb⟩, ⟨kc, hc⟩⟩

theorem reduceWinner_ok_keys :
    ∀ (cs : List (ResponseTransaction × Nat)) (b w : ResponseTransaction × Nat),
      reduceWinner b cs = .ok w → cs = [] ∨
        ((∃ kb, getTransactionTimestamp b.1 = .ok kb) ∧
         ∀ c ∈ cs, ∃ k, getTransactionTimestamp c.1 = .ok k) := by
  intro cs
  induction cs with
  | nil => intro b w _; exact Or.inl rfl
  | cons c cs ih =>
    intro b w h
    rw [reduceWinner] at h
    split at h
    · exact absurd h (by simp)
    next b' hb =>
      obtain ⟨hkb, hkc⟩ := winnerStep_ok_keys hb
      refine Or.inr ⟨hkb, ?_⟩
      intro x hx
      rcases List.mem_cons.mp hx with rfl | hx'
      · exact hkc
      · rcases ih b' w h with rfl | ⟨_, hall⟩
        · exact absurd hx' (by simp)
        · exact hall x hx'

/-- Claim C7: the bitcoin normalizer returns the block time field when
present and 0 otherwise; a well-formed starknet blockTimestamp maps to the
floor of the parsed milliseconds over 1000; spark parses createdAt,
defaulting to epoch 0 when absent, and maps to the floor of the
milliseconds over 1000. -/
theorem claim7_bitcoin_starknet_spark_normalizer :
    (∀ bt : Option Int,
      getTransactionTimestamp (.bitcoin bt) = .ok (.fin (bt.getD 0))) ∧
    (∀ (raw : String) (ms : Int),
      getTransactionTimestamp (.starknet ⟨raw, some ms⟩) =
        .ok (.fin (Int.fdiv ms 1000))) ∧
    (getTransactionTimestamp (.spark none) = .ok (.fin (Int.fdiv 0 1000))) ∧
    (∀ (raw : String) (ms : Int),
      getTransactionTimestamp (.spark (some ⟨raw, some ms⟩)) =
        .ok (.fin (Int.fdiv ms 1000))) :=
  ⟨fun _ => rfl, fun _ _ => rfl, rfl, fun _ _ => rfl⟩

/-- Claim C6: the stacks normalizer returns the confirmed block time when
numeric and strictly positive, else the burn-chain block time when numeric
(including 0 or negative), else the positive-infinity sentinel; the
sentinel is strictly greater than every real timestamp, and whenever a
sentinel-keyed item is among the available candidates the selected
winner's key is the sentinel. -/
theorem claim6_stacks_normalizer_sentinel :
    (∀ (n : Int) (bbt : Option Int), 0 < n →
      getTransactionTimestamp (.stacks (some n) bbt) = .ok (.fin n)) ∧
    (∀ n m : Int, ¬ 0 < n →
      getTransactionTimestamp (.stacks (some n) (some m)) = .ok (.fin m)) ∧
    (∀ m : Int, getTransactionTimestamp (.stacks none (some m)) = .ok (.fin m)) ∧
    (∀ n : Int, ¬ 0 < n →
      getTransactionTimestamp (.stacks (some n) none) = .ok .inf) ∧
    (getTransactionTimestamp (.stacks none none) = .ok .inf) ∧
    (∀ k : Int, mkGt .inf (.fin k) = true) ∧
    (∀ (av : List (ResponseTransaction × Nat)) (w : ResponseTransaction × Nat)
      (kw : MergeKey),
      (∀ c ∈ av, ∃ k, getTransactionTimestamp c.1 = .ok k) →
      (∃ c ∈ av, getTransactionTimestamp c.1 = .ok .inf) →
      selectWinner av = .ok w →
      getTransactionTimestamp w.1 = .ok kw → kw = .inf) := by
  refine ⟨?_, ?_, ?_, ?_, rfl, fun k => rfl, ?_⟩
  · intro n bbt hn
    simp [getTransactionTimestamp, stacksTimestamp, hn]
  · intro n m hn
    simp [getTransactionTimestamp, stacksTimestamp, hn]
  · intro m
    simp [getTransactionTimestamp, stacksTimestamp]
  · intro n hn
    simp [getTransactionTimestamp, stacksTimestamp, hn]
  · intro av w kw hkeys hinf hw hkw
    have hne : av ≠ [] := by
      rcases hinf with ⟨c, hc, _⟩
      intro h
      rw [h] at hc
      exact absurd hc (by simp)
    obtain ⟨w', kw', hw', hkw', hmem', hbound'⟩ := selectWinner_keys_spec hne hkeys
    have hww : w' = w := Except.ok.inj (hw'.symm.trans hw)
    subst hww
    have hkk : kw = kw' := Except.ok.inj (hkw.symm.trans hkw')
    subst hkk
    rcases hinf with ⟨c, hc, hck⟩
    obtain ⟨h1, _⟩ := hbound' c hc .inf hck
    have htop : MergeKey.toW kw = ⊤ := top_le_iff.mp (by simpa [MergeKey.toW] using h1)
    have hnn : kw ≠ .nan := getTransactionTimestamp_ne_nan hkw
    cases kw with
    | fin n => exact absurd htop (by simp [MergeKey.toW])
    | inf => rfl
    | nan => exact absurd rfl hnn

/-- Witness for claim C6 at concrete stacks transactions. -/
theorem claim6_witness :
    getTransactionTimestamp (.stacks (some 5) (some (-2))) = .ok (.fin 5) ∧
    getTransactionTimestamp (.stacks (some 0) (some (-2))) = .ok (.fin (-2)) ∧
    getTransactionTimestamp (.stacks (some (-1)) none) = .ok .inf ∧
    (∀ c ∈ [((.stacks none none : ResponseTransaction), 0),
            ((.bitcoin (some 100) : ResponseTransaction), 1)],
      ∃ k, getTransactionTimestamp c.1 = .ok k) := by
  obtain ⟨h1, h2, _, h4, _, _, _⟩ := claim6_stacks_normalizer_sentinel
  refine ⟨h1 5 (some (-2)) (by decide), h2 0 (-2) (by decide), h4 (-1) (by decide), ?_⟩
  intro c hc
  rcases List.mem_cons.mp hc with rfl | hc'
  · exact ⟨.inf, rfl⟩
  · rcases List.mem_cons.mp hc' with rfl | hc''
    · exact ⟨.fin 100, rfl⟩
    · exact absurd hc'' (by simp)

/-- Claim C4: unparseable starknet blockTimestamp and spark createdAt
fields make timestamp normalization fail with an error carrying the
offending raw value, and whenever such an item is examined during winner
selection (any reduce over at least two candidates) the selection fails
rather than defaulting. -/
theorem claim4_malformed_timestamp_fatal :
    (∀ raw : String, getTransactionTimestamp (.starknet ⟨raw, none⟩) =
      .error ("Invalid blockTimestamp for starknet transaction: " ++ raw)) ∧
    (∀ raw : String, getTransactionTimestamp (.spark (some ⟨raw, none⟩)) =
      .error ("Invalid createdAt for spark transaction: " ++ raw)) ∧
    (∀ (av : List (ResponseTransaction × Nat)) (c : ResponseTransaction × Nat),
      c ∈ av → (∃ e0, getTransactionTimestamp c.1 = .error e0) →
      2 ≤ av.length → ∃ e, selectWinner av = .error e) := by
  refine ⟨fun _ => rfl, fun _ => rfl, ?_⟩
  intro av c hc hbad hlen
  cases hsel : selectWinner av with
  | error e => exact ⟨e, rfl⟩
  | ok w =>
    exfalso
    cases av with
    | nil => simp at hlen
    | cons c0 cs =>
      rw [selectWinner] at hsel
      rcases reduceWinner_ok_keys cs c0 w hsel with rfl | ⟨hk0, hall⟩
      · simp at hlen
      · obtain ⟨e0, he0⟩ := hbad
        rcases List.mem_cons.mp hc with rfl | hc'
        · obtain ⟨k0, hk0⟩ := hk0
          rw [hk0] at he0
          exact absurd he0 (by simp)
        · obtain ⟨k0, hk0⟩ := hall c hc'
          rw [hk0] at he0
          exact absurd he0 (by simp)

/-- Witness for claim C4 at a concrete malformed starknet item among two
candidates. -/
theorem claim4_witness :
    ∃ e, selectWinner [((.bitcoin (some 1) : ResponseTransaction), 0),
      ((.starknet ⟨"not-a-date", none⟩ : ResponseTransaction), 1)] = .error e := by
  refine claim4_malformed_timestamp_fatal.2.2 _
    ((.starknet ⟨"not-a-date", none⟩ : ResponseTransaction), 1) (by simp) ?_ (by simp)
  exact ⟨"Invalid blockTimestamp for starknet transaction: not-a-date", rfl⟩


/-- Claim C3: constructing a merger from an absent or empty stream list
fails immediately, and a non-positive, non-finite, or over-maximum limit
makes takeN fail with a descriptive error while the operation log stays
empty (no peek or next is issued on any stream). -/
theorem claim3_construction_and_limit_validation :
    (StreamMerger.make none = .error "StreamMerger requires at least one stream") ∧
    (StreamMerger.make (some []) = .error "StreamMerger requires at least one stream") ∧
    (∀ (m : StreamMerger) (limit : JSLimit),
      jsLe0 limit = true ∨ jsIsFinite limit = false →
      m.takeN limit = (.error ("Invalid limit: " ++ jsLimitToString limit ++
        ". Must be a positive finite number."), [])) ∧
    (∀ (m : StreamMerger) (limit : JSLimit),
      jsLe0 limit = false → jsIsFinite limit = true → jsGtMax limit = true →
      m.takeN limit = (.error ("Limit " ++ jsLimitToString limit ++
        " exceeds maximum allowed limit of 10000"), [])) := by
  refine ⟨rfl, rfl, ?_, ?_⟩
  · intro m limit h
    unfold StreamMerger.takeN
    rcases h with h | h
    · rw [if_pos]
      rw [h]
      rfl
    · rw [if_pos]
      rw [h]
      simp
  · intro m limit h1 h2 h3
    unfold StreamMerger.takeN
    rw [if_neg, if_pos]
    · rw [h3]
    · rw [h1, h2]
      simp

/-- Witness for claim C3 at the limits 0, NaN and 10001. -/
theorem claim3_witness :
    StreamMerger.make (some ([] : List TransactionStream)) =
      .error "StreamMerger requires at least one stream" ∧
    StreamMerger.takeN ⟨[TransactionStream.fromList [.bitcoin (some 1)]]⟩ (.num 0) =
      (.error ("Invalid limit: " ++ jsLimitToString (.num 0) ++
        ". Must be a positive finite number."), []) ∧
    StreamMerger.takeN ⟨[TransactionStream.fromList [.bitcoin (some 1)]]⟩ .nan =
      (.error ("Invalid limit: " ++ jsLimitToString .nan ++
        ". Must be a positive finite number."), []) ∧
    StreamMerger.takeN ⟨[TransactionStream.fromList [.bitcoin (some 1)]]⟩ (.num 10001) =
      (.error ("Limit " ++ jsLimitToString (.num 10001) ++
        " exceeds maximum allowed limit of 10000"), []) := by
  obtain ⟨h1, h2, h3, h4⟩ := claim3_construction_and_limit_validation
  exact ⟨h2, h3 _ _ (Or.inl (by decide)), h3 _ _ (Or.inr (by decide)),
    h4 _ _ (by decide) (by decide) (by decide)⟩

/-- Claim C8: when every stream's peek reports no available item in a
round the loop stops and returns what was collected so far without error,
and in particular a merger whose streams all peek empty returns the empty
sequence on any valid limit. -/
theorem claim8_exhaustion_short_read :
    (∀ (streams : List TransactionStream) (limit : JSLimit)
      (results : List ResponseTransaction) (ec : Nat) (log : List Event),
      (∀ s ∈ streams, TransactionStream.peek s = none) →
      jsLtNat results.length limit = true →
      takeNLoop streams limit results ec log =
        (.ok results, log ++ peekEvents streams)) ∧
    (∀ (m : StreamMerger) (limit : JSLimit),
      jsLe0 limit = false → jsIsFinite limit = true → jsGtMax limit = false →
      (∀ s ∈ m.streams, TransactionStream.peek s = none) →
      m.takeN limit = (.ok [], peekEvents m.streams)) := by
  have hpart1 : ∀ (streams : List TransactionStream) (limit : JSLimit)
      (results : List ResponseTransaction) (ec : Nat) (log : List Event),
      (∀ s ∈ streams, TransactionStream.peek s = none) →
      jsLtNat results.length limit = true →
      takeNLoop streams limit results ec log =
        (.ok results, log ++ peekEvents streams) := by
    intro streams limit results ec log hnone hlt
    exact takeNLoop_exhausted streams limit results ec log _ hlt
      (roundStep_of_exhausted (availableOf_eq_nil hnone))
  refine ⟨hpart1, ?_⟩
  intro m limit h1 h2 h3 hnone
  have hlim : ∃ n : Int, limit = .num n ∧ 0 < n := by
    cases limit with
    | nan => simp [jsIsFinite] at h2
    | posInf => simp [jsIsFinite] at h2
    | negInf => simp [jsIsFinite] at h2
    | num n =>
      refine ⟨n, rfl, ?_⟩
      simp only [jsLe0, decide_eq_false_iff_not, not_le] at h1
      exact h1
  obtain ⟨n, rfl, hn⟩ := hlim
  unfold StreamMerger.takeN
  rw [if_neg, if_neg]
  · have := hpart1 m.streams (.num n) [] 0 [] hnone (by simp [jsLtNat]; omega)
    rw [this]
    simp
  · rw [h3]
    simp
  · rw [h1, h2]
    simp

/-- Witness for claim C8: one exhausted stream, limit 5, empty result. -/
theorem claim8_witness :
    StreamMerger.takeN ⟨[TransactionStream.fromList []]⟩ (.num 5) =
      (.ok [], peekEvents [TransactionStream.fromList []]) := by
  refine claim8_exhaustion_short_read.2 _ _ (by decide) (by decide) (by decide) ?_
  intro s hs
  rcases List.mem_cons.mp hs with rfl | hs'
  · rfl
  · exact absurd hs' (by simp)


/-- Recognizer for next-events in the operation log. -/
def Event.isNextEv : Event → Bool
  | .next _ _ => true
  | .peek _ _ => false

theorem peekEvents_no_next (streams : List TransactionStream) :
    (peekEvents streams).filter Event.isNextEv = [] := by
  rw [List.filter_eq_nil_iff]
  intro e he
  unfold peekEvents at he
  rcases List.mem_map.mp he with ⟨p, _, rfl⟩
  simp [Event.isNextEv]

/-- Claim C9: in every round that consumes, the log records the peeks
followed by exactly one next event, issued on the winning stream; every
non-winning stream is left unchanged, and only the winner's cursor
advances by one position. -/
theorem claim9_single_next_per_round :
    ∀ (streams : List TransactionStream) (r : NextResult)
      (streams' : List TransactionStream) (w : Nat) (evs : List Event),
      roundStep streams = (.ok (.stepped r streams' w), evs) →
      evs = peekEvents streams ++ [Event.next w r] ∧
      evs.filter Event.isNextEv = [Event.next w r] ∧
      (∀ j, j ≠ w → streams'.getD j [] = streams.getD j []) ∧
      streams'.getD w [] = (TransactionStream.next (streams.getD w [])).2 ∧
      w < streams.length := by
  intro streams r streams' w evs h
  obtain ⟨winner, hsel, hwi, hmem, hr, hs, hevs⟩ := roundStep_stepped_inv h
  have hlen : w < streams.length := by
    have := (availableOf_mem hmem).1
    rw [hwi] at this
    exact this
  refine ⟨hevs, ?_, ?_, ?_, hlen⟩
  · rw [hevs, List.filter_append, peekEvents_no_next]
    rfl
  · intro j hj
    rw [hs, List.getD_eq_getElem?_getD, List.getD_eq_getElem?_getD,
      List.getElem?_set_ne (fun hh => hj hh.symm), ← List.getD_eq_getElem?_getD]
  · rw [hs, List.getD_eq_getElem?_getD,
      List.getElem?_set_eq_of_lt _ (by simpa using hlen)]
    rfl

/-- Witness for claim C9 at a concrete two-stream round. -/
theorem claim9_witness :
    roundStep [TransactionStream.fromList [.bitcoin (some 100)],
      TransactionStream.fromList [.bitcoin (some 90)]] =
      (.ok (.stepped ⟨false, some (.bitcoin (some 100))⟩
        [[], TransactionStream.fromList [.bitcoin (some 90)]] 0),
       [Event.peek 0 (some (.bitcoin (some 100))),
        Event.peek 1 (some (.bitcoin (some 90))),
        Event.next 0 ⟨false, some (.bitcoin (some 100))⟩]) ∧
    ([Event.peek 0 (some (.bitcoin (some 100))),
      Event.peek 1 (some (.bitcoin (some 90))),
      Event.next 0 ⟨false, some (.bitcoin (some 100))⟩] :
        List Event).filter Event.isNextEv =
      [Event.next 0 ⟨false, some (.bitcoin (some 100))⟩] := by
  have h : roundStep [TransactionStream.fromList [.bitcoin (some 100)],
      TransactionStream.fromList [.bitcoin (some 90)]] =
      (.ok (.stepped ⟨false, some (.bitcoin (some 100))⟩
        [[], TransactionStream.fromList [.bitcoin (some 90)]] 0),
       [Event.peek 0 (some (.bitcoin (some 100))),
        Event.peek 1 (some (.bitcoin (some 90))),
        Event.next 0 ⟨false, some (.bitcoin (some 100))⟩]) := by rfl
  exact ⟨h, (claim9_single_next_per_round _ _ _ _ _ h).2.1⟩

/-- Claim C2: three consecutive rounds that append no value abort the
whole call with the distinct stall error (no partial result is returned,
whatever was already collected), and any successful append resets the
consecutive-empty-round counter to zero. -/
theorem claim2_stall_and_counter_reset :
    (∀ (streams s1 s2 s3 : List TransactionStream) (limit : JSLimit)
      (results : List ResponseTransaction) (log : List Event)
      (r1 r2 r3 : NextResult) (w1 w2 w3 : Nat) (e1 e2 e3 : List Event),
      jsLtNat results.length limit = true →
      roundStep streams = (.ok (.stepped r1 s1 w1), e1) →
      r1.done = true ∨ r1.value = none →
      roundStep s1 = (.ok (.stepped r2 s2 w2), e2) →
      r2.done = true ∨ r2.value = none →
      roundStep s2 = (.ok (.stepped r3 s3 w3), e3) →
      r3.done = true ∨ r3.value = none →
      takeNLoop streams limit results 0 log =
        (.error "Stream returned empty results 3 times consecutively. Possible infinite loop detected.",
          log ++ e1 ++ e2 ++ e3)) ∧
    (∀ (streams streams' : List TransactionStream) (limit : JSLimit)
      (results : List ResponseTransaction) (ec : Nat) (log : List Event)
      (v : ResponseTransaction) (w : Nat) (evs : List Event),
      jsLtNat results.length limit = true →
      roundStep streams = (.ok (.stepped ⟨false, some v⟩ streams' w), evs) →
      takeNLoop streams limit results ec log =
        takeNLoop streams' limit (results ++ [v]) 0 (log ++ evs)) := by
  constructor
  · intro streams s1 s2 s3 limit results log r1 r2 r3 w1 w2 w3 e1 e2 e3
      hlt h1 hr1 h2 hr2 h3 hr3
    rw [takeNLoop_empty_cont streams s1 limit results 0 log r1 w1 e1 hlt h1 hr1
      (by omega)]
    rw [takeNLoop_empty_cont s1 s2 limit results 1 (log ++ e1) r2 w2 e2 hlt h2 hr2
      (by omega)]
    rw [takeNLoop_empty_stall s2 s3 limit results 2 (log ++ e1 ++ e2) r3 w3 e3
      hlt h3 hr3 (by omega)]
  · intro streams streams' limit results ec log v w evs hlt h
    exact takeNLoop_append streams streams' limit results ec log v w evs hlt h

/-- Witness for claim C2: a stream that peeks an item but delivers nothing
three times in a row, beside a stream that still has data, makes the call
fail with the stall error even though nothing was yet collected. -/
theorem claim2_witness :
    (takeNLoop
      [[⟨some (.bitcoin (some 100)), ⟨false, none⟩⟩,
        ⟨some (.bitcoin (some 100)), ⟨false, none⟩⟩,
        ⟨some (.bitcoin (some 100)), ⟨false, none⟩⟩],
       TransactionStream.fromList [.bitcoin (some 50)]]
      (.num 5) [] 0 []).1 =
      .error "Stream returned empty results 3 times consecutively. Possible infinite loop detected." := by
  have h := claim2_stall_and_counter_reset.1
    [[⟨some (.bitcoin (some 100)), ⟨false, none⟩⟩,
      ⟨some (.bitcoin (some 100)), ⟨false, none⟩⟩,
      ⟨some (.bitcoin (some 100)), ⟨false, none⟩⟩],
     TransactionStream.fromList [.bitcoin (some 50)]]
    [[⟨some (.bitcoin (some 100)), ⟨false, none⟩⟩,
      ⟨some (.bitcoin (some 100)), ⟨false, none⟩⟩],
     TransactionStream.fromList [.bitcoin (some 50)]]
    [[⟨some (.bitcoin (some 100)), ⟨false, none⟩⟩],
     TransactionStream.fromList [.bitcoin (some 50)]]
    [[], TransactionStream.fromList [.bitcoin (some 50)]]
    (.num 5) [] []
    ⟨false, none⟩ ⟨false, none⟩ ⟨false, none⟩ 0 0 0
    [Event.peek 0 (some (.bitcoin (some 100))),
     Event.peek 1 (some (.bitcoin (some 50))),
     Event.next 0 ⟨false, none⟩]
    [Event.peek 0 (some (.bitcoin (some 100))),
     Event.peek 1 (some (.bitcoin (some 50))),
     Event.next 0 ⟨false, none⟩]
    [Event.peek 0 (some (.bitcoin (some 100))),
     Event.peek 1 (some (.bitcoin (some 50))),
     Event.next 0 ⟨false, none⟩]
    (by decide) (by rfl) (Or.inr rfl) (by rfl) (Or.inr rfl)
    (by rfl) (Or.inr rfl)
  rw [h]


/-- The appended (transaction, producing stream index) pairs that a log
records: one entry per next-event that carried a value and was not done. -/
def taggedOf : List Event → List (ResponseTransaction × Nat)
  | [] => []
  | .next i r :: rest =>
    match r with
    | ⟨false, some v⟩ => (v, i) :: taggedOf rest
    | _ => taggedOf rest
  | .peek _ _ :: rest => taggedOf rest

theorem taggedOf_append :
    ∀ (a b : List Event), taggedOf (a ++ b) = taggedOf a ++ taggedOf b := by
  intro a
  induction a with
  | nil => intro b; rfl
  | cons e rest ih =>
    intro b
    cases e with
    | peek i o => simpa [taggedOf] using ih b
    | next i r =>
      cases r with
      | mk d val =>
        cases d with
        | false =>
          cases val with
          | none => simpa [taggedOf] using ih b
          | some v => simp [taggedOf, ih b]
        | true => simpa [taggedOf] using ih b

theorem taggedOf_map_peek (l : List (Option ResponseTransaction × Nat)) :
    taggedOf (l.map (fun p => Event.peek p.2 p.1)) = [] := by
  induction l with
  | nil => rfl
  | cons p rest ih => simpa [taggedOf] using ih

theorem taggedOf_peekEvents (streams : List TransactionStream) :
    taggedOf (peekEvents streams) = [] :=
  taggedOf_map_peek (peekAll streams 0)

/-- Boolean check that a transaction's merge key exists. -/
def keyIsOk (tx : ResponseTransaction) : Bool :=
  match getTransactionTimestamp tx with
  | .ok _ => true
  | .error _ => false

theorem keyIsOk_iff {tx : ResponseTransaction} :
    keyIsOk tx = true ↔ ∃ k, getTransactionTimestamp tx = .ok k := by
  unfold keyIsOk
  split
  next k h => exact ⟨fun _ => ⟨k, h⟩, fun _ => rfl⟩
  next e h => simp [h]

/-- Boolean non-increase of merge keys between two transactions (true when
either key is missing, so it only constrains keyed items). -/
def keyGeB (a b : ResponseTransaction) : Bool :=
  match getTransactionTimestamp a, getTransactionTimestamp b with
  | .ok ka, .ok kb => !mkGt kb ka
  | _, _ => true

theorem keyGeB_le {a b : ResponseTransaction} {ka kb : MergeKey}
    (ha : getTransactionTimestamp a = .ok ka)
    (hb : getTransactionTimestamp b = .ok kb)
    (h : keyGeB a b = true) : MergeKey.toW kb ≤ MergeKey.toW ka := by
  unfold keyGeB at h
  rw [ha, hb] at h
  have h2 : (!mkGt kb ka) = true := h
  have hgt : mkGt kb ka = false := by
    cases hg : mkGt kb ka
    · rfl
    · rw [hg] at h2; exact absurd h2 (by simp)
  exact (mkGt_false_iff (getTransactionTimestamp_ne_nan hb)
    (getTransactionTimestamp_ne_nan ha)).mp hgt

/-- Descending output order: later entries have no greater key, and on
exact key equality the earlier entry's stream index is no larger. -/
def outRel (a b : ResponseTransaction × Nat) : Prop :=
  ∀ ka kb, getTransactionTimestamp a.1 = .ok ka →
    getTransactionTimestamp b.1 = .ok kb →
    mkGt kb ka = false ∧ (mkEq kb ka = true → a.2 ≤ b.2)

/-- Bound of an item against the last appended key and stream index. -/
def tagBound (last : Option (MergeKey × Nat)) (x : ResponseTransaction × Nat) :
    Prop :=
  ∀ k, getTransactionTimestamp x.1 = .ok k →
    match last with
    | none => True
    | some (kl, jl) => MergeKey.toW k ≤ MergeKey.toW kl ∧
        (MergeKey.toW k = MergeKey.toW kl → jl ≤ x.2)

/-- A stream of the merge invariant: an honest stream over keyed items in
non-increasing key order, all bounded by the last appended item. -/
def GoodStream (last : Option (MergeKey × Nat)) (j : Nat)
    (s : TransactionStream) : Prop :=
  ∃ txs, s = TransactionStream.fromList txs ∧
    (∀ tx ∈ txs, ∃ k, getTransactionTimestamp tx = .ok k) ∧
    List.Pairwise (fun a b => keyGeB a b = true) txs ∧
    (∀ tx ∈ txs, tagBound last (tx, j))

/-- The merge-loop invariant: every stream position is good. -/
def MergeInv (streams : List TransactionStream)
    (last : Option (MergeKey × Nat)) : Prop :=
  ∀ j, j < streams.length → GoodStream last j (streams.getD j [])

/-- The last appended key, when present, is a real key. -/
def lastOk : Option (MergeKey × Nat) → Prop
  | none => True
  | some (kl, _) => kl ≠ .nan

theorem mergeInv_available_keys {streams : List TransactionStream}
    {last : Option (MergeKey × Nat)} (hinv : MergeInv streams last) :
    ∀ c ∈ availableOf streams, ∃ k, getTransactionTimestamp c.1 = .ok k := by
  intro c hc
  obtain ⟨hlt, hpeek⟩ := availableOf_mem hc
  obtain ⟨txs, hfrom, hkeys, _, _⟩ := hinv c.2 hlt
  rw [hfrom, fromList_peek] at hpeek
  cases txs with
  | nil => exact absurd hpeek (by simp)
  | cons t ts =>
    have ht : t = c.1 := by simpa using hpeek
    subst ht
    exact hkeys _ (List.mem_cons_self _ _)

theorem roundStep_error_inv {streams : List TransactionStream}
    {e : String} {evs : List Event}
    (h : roundStep streams = (.error e, evs)) :
    selectWinner (availableOf streams) = .error e ∧ evs = peekEvents streams ∧
      availableOf streams ≠ [] := by
  unfold roundStep at h
  split at h
  · simp at h
  next c cs hav =>
    split at h
    next e0 hw =>
      simp only [Prod.mk.injEq, Except.error.injEq] at h
      rw [hav, hw, h.1]
      exact ⟨rfl, h.2.symm, by simp [hav]⟩
    · simp at h


theorem mergeInv_round {streams : List TransactionStream}
    {last : Option (MergeKey × Nat)}
    (hinv : MergeInv streams last)
    {r : NextResult} {streams' : List TransactionStream} {w : Nat}
    {evs : List Event}
    (h : roundStep streams = (.ok (.stepped r streams' w), evs)) :
    ∃ v kw, r = ⟨false, some v⟩ ∧
      getTransactionTimestamp v = .ok kw ∧
      tagBound last (v, w) ∧
      MergeInv streams' (some (kw, w)) ∧
      kw ≠ .nan ∧
      (∀ x, tagBound (some (kw, w)) x → tagBound last x) ∧
      evs = peekEvents streams ++ [Event.next w r] := by
  obtain ⟨winner, hsel, hwi, hmem, hr, hs, hevs⟩ := roundStep_stepped_inv h
  obtain ⟨hwlt0, hwpeek0⟩ := availableOf_mem hmem
  rw [hwi] at hwlt0 hwpeek0
  obtain ⟨txs, hfrom, hkeys, hsort, hbnd⟩ := hinv w hwlt0
  rw [hfrom, fromList_peek] at hwpeek0
  cases txs with
  | nil => exact absurd hwpeek0 (by simp)
  | cons v rest =>
  have hv1 : winner.1 = v := by simpa using hwpeek0.symm
  have havne : availableOf streams ≠ [] := fun hh => by
    rw [hh] at hmem; exact absurd hmem (by simp)
  obtain ⟨w', kw, hw', hkw, hmem', hbound⟩ :=
    selectWinner_keys_spec havne (mergeInv_available_keys hinv)
  have hww : w' = winner := Except.ok.inj (hw'.symm.trans hsel)
  subst hww
  have vkey : getTransactionTimestamp v = .ok kw := hv1 ▸ hkw
  have hnext : TransactionStream.next (streams.getD w []) =
      (⟨false, some v⟩, TransactionStream.fromList rest) := by
    rw [hfrom]; rfl
  rw [hnext] at hr hs
  have hinv' : MergeInv streams' (some (kw, w)) := by
    intro j hj
    have hlen' : streams'.length = streams.length := by rw [hs]; simp
    by_cases hjw : j = w
    · subst hjw
      have hgetj : streams'.getD j [] = TransactionStream.fromList rest := by
        rw [hs, List.getD_eq_getElem?_getD,
          List.getElem?_set_eq_of_lt _ (by simpa using hwlt0)]
        rfl
      rw [hgetj]
      refine ⟨rest, rfl, fun tx htx => hkeys tx (List.mem_cons_of_mem v htx),
        hsort.of_cons, ?_⟩
      intro tx htx k hk
      have hge : keyGeB v tx = true := (List.pairwise_cons.mp hsort).1 tx htx
      exact ⟨le_trans (keyGeB_le vkey hk hge) (le_refl _), fun _ => le_refl j⟩
    · have hsame : streams'.getD j [] = streams.getD j [] := by
        rw [hs, List.getD_eq_getElem?_getD,
          List.getElem?_set_ne (fun hh => hjw hh.symm),
          ← List.getD_eq_getElem?_getD]
      rw [hsame]
      have hj' : j < streams.length := hlen' ▸ hj
      obtain ⟨txsj, hfromj, hkeysj, hsortj, hbndj⟩ := hinv j hj'
      refine ⟨txsj, hfromj, hkeysj, hsortj, ?_⟩
      intro tx htx k hk
      cases txsj with
      | nil => exact absurd htx (by simp)
      | cons hd tl =>
        obtain ⟨khd, hkhd⟩ := hkeysj hd (List.mem_cons_self hd tl)
        have hhdmem : (hd, j) ∈ availableOf streams :=
          availableOf_complete hj' (by rw [hfromj, fromList_peek]; rfl)
        obtain ⟨hhdle, hhdeq⟩ := hbound (hd, j) hhdmem khd hkhd
        have htxle : MergeKey.toW k ≤ MergeKey.toW khd := by
          rcases List.mem_cons.mp htx with rfl | htl
          · rw [hkhd] at hk; cases Except.ok.inj hk; exact le_refl _
          · exact keyGeB_le hkhd hk ((List.pairwise_cons.mp hsortj).1 tx htl)
        refine ⟨le_trans htxle hhdle, fun heq => ?_⟩
        have hsand : MergeKey.toW khd = MergeKey.toW kw :=
          le_antisymm hhdle (heq ▸ htxle)
        exact hwi ▸ hhdeq hsand
  have htrans : ∀ x, tagBound (some (kw, w)) x → tagBound last x := by
    intro x hx k hk
    cases last with
    | none => trivial
    | some kl =>
      obtain ⟨kl0, jl⟩ := kl
      obtain ⟨h1, h2⟩ := hx k hk
      obtain ⟨h3, h4⟩ := hbnd v (List.mem_cons_self v rest) kw vkey
      refine ⟨le_trans h1 h3, fun heq => ?_⟩
      have hkwkl : MergeKey.toW kw = MergeKey.toW kl0 := le_antisymm h3 (heq ▸ h1)
      exact le_trans (h4 hkwkl) (h2 (heq.trans hkwkl.symm))
  exact ⟨v, kw, hr, vkey, hbnd v (List.mem_cons_self v rest),
    hinv', getTransactionTimestamp_ne_nan vkey, htrans, hevs⟩


theorem mergeInv_no_roundStep_error {streams : List TransactionStream}
    {last : Option (MergeKey × Nat)} {e : String} {evs : List Event}
    (hinv : MergeInv streams last)
    (h : roundStep streams = (.error e, evs)) : False := by
  obtain ⟨hsel, _, hne⟩ := roundStep_error_inv h
  obtain ⟨w', kw, hw', _, _, _⟩ :=
    selectWinner_keys_spec hne (mergeInv_available_keys hinv)
  rw [hsel] at hw'
  exact absurd hw' (by simp)

/-- Descending output order phrased through the order embedding. -/
def outRelW (a b : ResponseTransaction × Nat) : Prop :=
  ∀ ka kb, getTransactionTimestamp a.1 = .ok ka →
    getTransactionTimestamp b.1 = .ok kb →
    MergeKey.toW kb ≤ MergeKey.toW ka ∧
    (MergeKey.toW kb = MergeKey.toW ka → a.2 ≤ b.2)

theorem takeNLoop_sorted_run :
    ∀ (N : Nat) (streams : List TransactionStream), sumLen streams ≤ N →
      ∀ (limit : JSLimit) (results : List ResponseTransaction) (ec : Nat)
        (log : List Event) (last : Option (MergeKey × Nat)),
        MergeInv streams last →
        ∃ Δ, takeNLoop streams limit results ec log =
            (.ok (results ++ (taggedOf Δ).map Prod.fst), log ++ Δ) ∧
          List.Pairwise outRelW (taggedOf Δ) ∧
          (∀ x ∈ taggedOf Δ, tagBound last x) := by
  intro N
  induction N with
  | zero =>
    intro streams hN limit results ec log last hinv
    cases hlt : jsLtNat results.length limit with
    | false =>
      refine ⟨[], ?_, by rw [show taggedOf [] = [] from rfl]; exact List.Pairwise.nil,
        by intro x hx; rw [show taggedOf [] = [] from rfl] at hx; exact absurd hx (by simp)⟩
      rw [takeNLoop_stop _ _ _ _ _ hlt, show taggedOf [] = [] from rfl]
      simp
    | true =>
      cases hrs : roundStep streams with
      | mk res evs =>
        cases res with
        | error e => exact absurd (mergeInv_no_roundStep_error hinv hrs) id
        | ok rr =>
          cases rr with
          | exhausted =>
            obtain ⟨_, hevs⟩ := roundStep_exhausted_inv hrs
            have htag : taggedOf evs = [] := by rw [hevs, taggedOf_peekEvents]
            refine ⟨evs, ?_, by rw [htag]; exact List.Pairwise.nil,
              by rw [htag]; simp⟩
            rw [takeNLoop_exhausted _ _ _ _ _ _ hlt hrs, htag]
            simp
          | stepped r s' w =>
            exact absurd (roundStep_stepped_sumLen hrs) (by omega)
  | succ N ih =>
    intro streams hN limit results ec log last hinv
    cases hlt : jsLtNat results.length limit with
    | false =>
      refine ⟨[], ?_, by rw [show taggedOf [] = [] from rfl]; exact List.Pairwise.nil,
        by intro x hx; rw [show taggedOf [] = [] from rfl] at hx; exact absurd hx (by simp)⟩
      rw [takeNLoop_stop _ _ _ _ _ hlt, show taggedOf [] = [] from rfl]
      simp
    | true =>
      cases hrs : roundStep streams with
      | mk res evs =>
        cases res with
        | error e => exact absurd (mergeInv_no_roundStep_error hinv hrs) id
        | ok rr =>
          cases rr with
          | exhausted =>
            obtain ⟨_, hevs⟩ := roundStep_exhausted_inv hrs
            have htag : taggedOf evs = [] := by rw [hevs, taggedOf_peekEvents]
            refine ⟨evs, ?_, by rw [htag]; exact List.Pairwise.nil,
              by rw [htag]; simp⟩
            rw [takeNLoop_exhausted _ _ _ _ _ _ hlt hrs, htag]
            simp
          | stepped r s' w =>
            obtain ⟨v, kw, hrv, vkey, hvbnd, hinv', hkwnn, htrans, hevs⟩ :=
              mergeInv_round hinv hrs
            subst hrv
            have hdec := roundStep_stepped_sumLen hrs
            obtain ⟨Δ', heq', hpair', hbnd'⟩ :=
              ih s' (by omega) limit (results ++ [v]) 0 (log ++ evs)
                (some (kw, w)) hinv'
            have htag : taggedOf (evs ++ Δ') = (v, w) :: taggedOf Δ' := by
              rw [taggedOf_append, hevs, taggedOf_append, taggedOf_peekEvents]
              rfl
            refine ⟨evs ++ Δ', ?_, ?_, ?_⟩
            · rw [takeNLoop_append _ _ _ _ _ _ _ _ _ hlt hrs, heq', htag]
              simp
            · rw [htag]
              refine List.Pairwise.cons ?_ hpair'
              intro y hy ka kb hka hkb
              have hb := hbnd' y hy kb hkb
              rw [vkey] at hka
              cases Except.ok.inj hka
              exact hb
            · rw [htag]
              intro x hx
              rcases List.mem_cons.mp hx with rfl | hx'
              · exact hvbnd
              · exact htrans x (hbnd' x hx')


theorem outRelW_imp_outRel {a b : ResponseTransaction × Nat}
    (h : outRelW a b) : outRel a b := by
  intro ka kb hka hkb
  obtain ⟨h1, h2⟩ := h ka kb hka hkb
  have hkan := getTransactionTimestamp_ne_nan hka
  have hkbn := getTransactionTimestamp_ne_nan hkb
  exact ⟨(mkGt_false_iff hkbn hkan).mpr h1,
    fun he => h2 ((mkEq_iff hkbn hkan).mp he)⟩

/-- Claim C1: for honest streams that emit keyed items in non-increasing
merge-key order and a valid limit, takeN succeeds, its result is exactly
the logged appended items in order, and that order is sorted by merge key
descending with exact ties resolved by ascending producing stream index;
moreover each round's winner is an available candidate of maximal key,
with exact ties won by the lowest stream index. -/
theorem claim1_merge_sorted_deterministic :
    (∀ (txss : List (List ResponseTransaction)) (limit : JSLimit),
      txss ≠ [] →
      (∀ txs ∈ txss, ∀ tx ∈ txs, keyIsOk tx = true) →
      (∀ txs ∈ txss, List.Pairwise (fun a b => keyGeB a b = true) txs) →
      jsLe0 limit = false → jsIsFinite limit = true → jsGtMax limit = false →
      ∃ res log,
        StreamMerger.takeN ⟨txss.map TransactionStream.fromList⟩ limit =
          (.ok res, log) ∧
        res = (taggedOf log).map Prod.fst ∧
        List.Pairwise outRel (taggedOf log)) ∧
    (∀ (av : List (ResponseTransaction × Nat)) (w : ResponseTransaction × Nat)
      (kw : MergeKey),
      (∀ c ∈ av, ∃ k, getTransactionTimestamp c.1 = .ok k) →
      selectWinner av = .ok w → getTransactionTimestamp w.1 = .ok kw →
      w ∈ av ∧ ∀ c ∈ av, ∀ kc, getTransactionTimestamp c.1 = .ok kc →
        mkGt kc kw = false ∧ (mkEq kc kw = true → w.2 ≤ c.2)) := by
  constructor
  · intro txss limit hne hkeys hsort h1 h2 h3
    have hinv : MergeInv (txss.map TransactionStream.fromList) none := by
      intro j hj
      have hj' : j < txss.length := by simpa using hj
      have hmem : txss.getD j [] ∈ txss := by
        rw [List.getD_eq_getElem _ _ hj']
        exact List.getElem_mem hj'
      rw [getD_map_fromList hj']
      refine ⟨txss.getD j [], rfl, ?_, hsort _ hmem, ?_⟩
      · intro tx htx
        exact keyIsOk_iff.mp (hkeys _ hmem tx htx)
      · intro tx htx k hk
        trivial
    obtain ⟨Δ, heq, hpair, _⟩ :=
      takeNLoop_sorted_run (sumLen (txss.map TransactionStream.fromList))
        (txss.map TransactionStream.fromList) (le_refl _) limit [] 0 [] none hinv
    simp only [List.nil_append] at heq
    refine ⟨(taggedOf Δ).map Prod.fst, Δ, ?_, rfl,
      hpair.imp (fun h => outRelW_imp_outRel h)⟩
    unfold StreamMerger.takeN
    rw [if_neg (by rw [h1, h2]; simp), if_neg (by rw [h3]; simp)]
    exact heq
  · intro av w kw hkeys hw hkw
    have hne : av ≠ [] := by
      intro hh
      rw [hh] at hw
      exact absurd hw (by simp [selectWinner])
    obtain ⟨w', kw', hw', hkw', hmem', hbound'⟩ := selectWinner_keys_spec hne hkeys
    have hww : w' = w := Except.ok.inj (hw'.symm.trans hw)
    subst hww
    have hkk : kw = kw' := Except.ok.inj (hkw.symm.trans hkw')
    subst hkk
    refine ⟨hmem', ?_⟩
    intro c hc kc hkc
    obtain ⟨hle, heq⟩ := hbound' c hc kc hkc
    have hkcn := getTransactionTimestamp_ne_nan hkc
    have hkwn := getTransactionTimestamp_ne_nan hkw
    exact ⟨(mkGt_false_iff hkcn hkwn).mpr hle,
      fun he => heq ((mkEq_iff hkcn hkwn).mp he)⟩

/-- Witness for claim C1: two streams with keys [100, 50] and [90] and
limit 3. -/
theorem claim1_witness :
    ∃ res log,
      StreamMerger.takeN
        ⟨[[ResponseTransaction.bitcoin (some 100),
           ResponseTransaction.bitcoin (some 50)],
          [ResponseTransaction.bitcoin (some 90)]].map
            TransactionStream.fromList⟩ (.num 3) = (.ok res, log) ∧
      res = (taggedOf log).map Prod.fst ∧
      List.Pairwise outRel (taggedOf log) := by
  refine claim1_merge_sorted_deterministic.1 _ _ (by simp) ?_ ?_ (by decide)
    (by decide) (by decide)
  · intro txs htxs tx htx
    rcases List.mem_cons.mp htxs with rfl | htxs'
    · rcases List.mem_cons.mp htx with rfl | htx'
      · rfl
      · rcases List.mem_cons.mp htx' with rfl | htx''
        · rfl
        · exact absurd htx'' (by simp)
    · rcases List.mem_cons.mp htxs' with rfl | htxs''
      · rcases List.mem_cons.mp htx with rfl | htx'
        · rfl
        · exact absurd htx' (by simp)
      · exact absurd htxs'' (by simp)
  · intro txs htxs
    rcases List.mem_cons.mp htxs with rfl | htxs'
    · refine List.Pairwise.cons ?_ (List.Pairwise.cons (by simp) List.Pairwise.nil)
      intro b hb
      rcases List.mem_cons.mp hb with rfl | hb'
      · rfl
      · exact absurd hb' (by simp)
    · rcases List.mem_cons.mp htxs' with rfl | htxs''
      · exact List.Pairwise.cons (by simp) List.Pairwise.nil
      · exact absurd htxs'' (by simp)


theorem takeNLoop_length_bound :
    ∀ (N : Nat) (streams : List TransactionStream), sumLen streams ≤ N →
      ∀ (n : Int) (results : List ResponseTransaction) (ec : Nat)
        (log : List Event) (res : List ResponseTransaction) (out : List Event),
        takeNLoop streams (.num n) results ec log = (.ok res, out) →
        (res.length : Int) ≤ max (results.length : Int) n ∧
          res.length ≤ results.length + sumLen streams := by
  intro N
  induction N with
  | zero =>
    intro streams hN n results ec log res out h
    cases hlt : jsLtNat results.length (.num n) with
    | false =>
      rw [takeNLoop_stop _ _ _ _ _ hlt] at h
      simp only [Prod.mk.injEq, Except.ok.injEq] at h
      rw [← h.1]
      exact ⟨le_max_left _ _, Nat.le_add_right _ _⟩
    | true =>
      cases hrs : roundStep streams with
      | mk rsum evs =>
        cases rsum with
        | error e =>
          rw [takeNLoop_error _ _ _ _ _ _ _ hlt hrs] at h
          exact absurd h (by simp)
        | ok rr =>
          cases rr with
          | exhausted =>
            rw [takeNLoop_exhausted _ _ _ _ _ _ hlt hrs] at h
            simp only [Prod.mk.injEq, Except.ok.injEq] at h
            rw [← h.1]
            exact ⟨le_max_left _ _, Nat.le_add_right _ _⟩
          | stepped r s' w =>
            exact absurd (roundStep_stepped_sumLen hrs) (by omega)
  | succ N ih =>
    intro streams hN n results ec log res out h
    cases hlt : jsLtNat results.length (.num n) with
    | false =>
      rw [takeNLoop_stop _ _ _ _ _ hlt] at h
      simp only [Prod.mk.injEq, Except.ok.injEq] at h
      rw [← h.1]
      exact ⟨le_max_left _ _, Nat.le_add_right _ _⟩
    | true =>
      have hltn : (results.length : Int) < n := by
        simpa [jsLtNat] using hlt
      cases hrs : roundStep streams with
      | mk rsum evs =>
        cases rsum with
        | error e =>
          rw [takeNLoop_error _ _ _ _ _ _ _ hlt hrs] at h
          exact absurd h (by simp)
        | ok rr =>
          cases rr with
          | exhausted =>
            rw [takeNLoop_exhausted _ _ _ _ _ _ hlt hrs] at h
            simp only [Prod.mk.injEq, Except.ok.injEq] at h
            rw [← h.1]
            exact ⟨le_max_left _ _, Nat.le_add_right _ _⟩
          | stepped r s' w =>
            have hdec := roundStep_stepped_sumLen hrs
            rcases r with ⟨d, val⟩
            cases d with
            | false =>
              cases val with
              | some v =>
                rw [takeNLoop_append _ _ _ _ _ _ _ _ _ hlt hrs] at h
                obtain ⟨hb1, hb2⟩ := ih s' (by omega) n (results ++ [v]) 0
                  (log ++ evs) res out h
                constructor
                · have hlen : ((results ++ [v]).length : Int) =
                      (results.length : Int) + 1 := by
                    simp
                  rw [hlen] at hb1
                  omega
                · have hlen : (results ++ [v]).length = results.length + 1 := by
                    simp
                  rw [hlen] at hb2
                  omega
              | none =>
                by_cases hec : 3 ≤ ec + 1
                · rw [takeNLoop_empty_stall _ _ _ _ _ _ _ _ _ hlt hrs
                    (Or.inr rfl) hec] at h
                  exact absurd h (by simp)
                · rw [takeNLoop_empty_cont _ _ _ _ _ _ _ _ _ hlt hrs
                    (Or.inr rfl) hec] at h
                  obtain ⟨hb1, hb2⟩ := ih s' (by omega) n results (ec + 1)
                    (log ++ evs) res out h
                  exact ⟨hb1, by omega⟩
            | true =>
              by_cases hec : 3 ≤ ec + 1
              · rw [takeNLoop_empty_stall _ _ _ _ _ _ _ _ _ hlt hrs
                  (Or.inl rfl) hec] at h
                exact absurd h (by simp)
              · rw [takeNLoop_empty_cont _ _ _ _ _ _ _ _ _ hlt hrs
                  (Or.inl rfl) hec] at h
                obtain ⟨hb1, hb2⟩ := ih s' (by omega) n results (ec + 1)
                  (log ++ evs) res out h
                exact ⟨hb1, by omega⟩

theorem sumLen_map_fromList (txss : List (List ResponseTransaction)) :
    sumLen (txss.map TransactionStream.fromList) = (txss.map List.length).sum := by
  unfold sumLen
  rw [List.map_map]
  congr 1
  apply List.map_congr_left
  intro txs _
  simp [TransactionStream.fromList]

/-- Claim C5: for honest non-empty stream sets and a valid limit, a
successful takeN returns at most limit items and at most the total number
of items available across all streams. -/
theorem claim5_result_length_bounds :
    ∀ (txss : List (List ResponseTransaction)) (n : Int)
      (res : List ResponseTransaction) (log : List Event),
      txss ≠ [] → 1 ≤ n → n ≤ 10000 →
      StreamMerger.takeN ⟨txss.map TransactionStream.fromList⟩ (.num n) =
        (.ok res, log) →
      (res.length : Int) ≤ n ∧ res.length ≤ (txss.map List.length).sum := by
  intro txss n res log hne h1 h2 htake
  unfold StreamMerger.takeN at htake
  rw [if_neg (by simp [jsLe0, jsIsFinite]; omega),
    if_neg (by simp [jsGtMax]; omega)] at htake
  obtain ⟨hb1, hb2⟩ := takeNLoop_length_bound
    (sumLen (txss.map TransactionStream.fromList)) _ (le_refl _) n [] 0 []
    res log htake
  constructor
  · simpa using le_trans hb1 (by simp; omega)
  · calc res.length ≤ [].length + sumLen (txss.map TransactionStream.fromList) := hb2
      _ = (txss.map List.length).sum := by simp [sumLen_map_fromList]

/-- Witness for claim C5: one stream with one item, limit 1. -/
theorem claim5_witness :
    ((1 : Int) ≤ 1 ∧
      (1 : Nat) ≤ ([[ResponseTransaction.bitcoin (some 100)]].map List.length).sum) := by
  have hrun : StreamMerger.takeN
      ⟨[[ResponseTransaction.bitcoin (some 100)]].map TransactionStream.fromList⟩
      (.num 1) =
      (.ok [ResponseTransaction.bitcoin (some 100)],
       [Event.peek 0 (some (ResponseTransaction.bitcoin (some 100))),
        Event.next 0 ⟨false, some (ResponseTransaction.bitcoin (some 100))⟩]) := by
    unfold StreamMerger.takeN
    rw [if_neg (by decide), if_neg (by decide)]
    show takeNLoop
      [TransactionStream.fromList [ResponseTransaction.bitcoin (some 100)]]
      (.num 1) [] 0 [] = _
    rw [takeNLoop_append
      [TransactionStream.fromList [ResponseTransaction.bitcoin (some 100)]]
      [[]] (.num 1) [] 0 [] (ResponseTransaction.bitcoin (some 100)) 0
      [Event.peek 0 (some (ResponseTransaction.bitcoin (some 100))),
       Event.next 0 ⟨false, some (ResponseTransaction.bitcoin (some 100))⟩]
      (by decide) (by rfl)]
    rw [takeNLoop_stop _ _ _ _ _ (by decide)]
    rfl
  have := claim5_result_length_bounds
    [[ResponseTransaction.bitcoin (some 100)]] 1
    [ResponseTransaction.bitcoin (some 100)] _ (by simp) (by omega) (by omega)
    hrun
  exact ⟨this.1, this.2⟩


theorem getTimestamp_agree {tx : ResponseTransaction} {k : MergeKey}
    (h : getTransactionTimestamp tx = .ok k) :
    getTransactionTimestampR tx = k := by
  cases tx with
  | bitcoin bt => exact Except.ok.inj h
  | «stacks» a b => exact Except.ok.inj h
  | starknet d =>
    obtain ⟨raw, parsed⟩ := d
    cases parsed with
    | none => exact absurd h (by simp [getTransactionTimestamp])
    | some ms => exact Except.ok.inj h
  | spark c =>
    cases c with
    | none => exact Except.ok.inj h
    | some d =>
      obtain ⟨raw, parsed⟩ := d
      cases parsed with
      | none => exact absurd h (by simp [getTransactionTimestamp])
      | some ms => exact Except.ok.inj h

theorem winnerStep_agree {b c r : ResponseTransaction × Nat}
    (h : winnerStep b c = .ok r) : winnerStepR b c = r := by
  obtain ⟨⟨kb, hkb⟩, ⟨kc, hkc⟩⟩ := winnerStep_ok_keys h
  unfold winnerStep at h
  rw [hkb, hkc] at h
  have h2 : (if mkGt kc kb = true then Except.ok c
      else if mkEq kc kb = true then
        Except.ok (if c.2 < b.2 then c else b)
      else Except.ok b) = Except.ok r := h
  unfold winnerStepR
  rw [getTimestamp_agree hkb, getTimestamp_agree hkc]
  by_cases hgt : mkGt kc kb = true
  · rw [if_pos hgt] at h2 ⊢
    exact Except.ok.inj h2
  · rw [if_neg hgt] at h2 ⊢
    by_cases heq : mkEq kc kb = true
    · rw [if_pos heq] at h2 ⊢
      exact Except.ok.inj h2
    · rw [if_neg heq] at h2 ⊢
      exact Except.ok.inj h2

theorem reduceWinner_agree :
    ∀ (cs : List (ResponseTransaction × Nat)) (b w : ResponseTransaction × Nat),
      reduceWinner b cs = .ok w → cs.foldl winnerStepR b = w := by
  intro cs
  induction cs with
  | nil => intro b w h; exact Except.ok.inj h
  | cons c cs ih =>
    intro b w h
    rw [reduceWinner] at h
    split at h
    · exact absurd h (by simp)
    next b' hb =>
      rw [List.foldl_cons, winnerStep_agree hb]
      exact ih b' w h

theorem selectWinner_agree {av : List (ResponseTransaction × Nat)}
    {w : ResponseTransaction × Nat} (h : selectWinner av = .ok w) :
    selectWinnerR av = some w := by
  cases av with
  | nil => exact absurd h (by simp [selectWinner])
  | cons c cs =>
    rw [selectWinner] at h
    rw [selectWinnerR, reduceWinner_agree cs c w h]

theorem roundStep_agree {streams : List TransactionStream}
    {rr : RoundResult} {evs : List Event}
    (h : roundStep streams = (.ok rr, evs)) :
    roundStepR streams = (rr, evs) := by
  unfold roundStep at h
  unfold roundStepR
  split at h
  next hav =>
    simp only [Prod.mk.injEq, Except.ok.injEq] at h
    obtain ⟨h1, h2⟩ := h
    subst h1 h2
    rw [hav]
    rfl
  next c cs hav =>
    split at h
    · simp at h
    next winner hw =>
      simp only [Prod.mk.injEq, Except.ok.injEq] at h
      obtain ⟨h1, h2⟩ := h
      subst h1 h2
      rw [hav, selectWinner_agree hw]

theorem takeNLoop_agree :
    ∀ (N : Nat) (streams : List TransactionStream), sumLen streams ≤ N →
      ∀ (limit : JSLimit) (results : List ResponseTransaction) (ec : Nat)
        (log : List Event) (res : List ResponseTransaction) (out : List Event),
        takeNLoop streams limit results ec log = (.ok res, out) →
        takeNLoopR streams limit results log = (res, out) := by
  intro N
  induction N with
  | zero =>
    intro streams hN limit results ec log res out h
    cases hlt : jsLtNat results.length limit with
    | false =>
      rw [takeNLoop_stop _ _ _ _ _ hlt] at h
      simp only [Prod.mk.injEq, Except.ok.injEq] at h
      rw [takeNLoopR_stop _ _ _ _ hlt, h.1, h.2]
    | true =>
      cases hrs : roundStep streams with
      | mk rsum evs =>
        cases rsum with
        | error e =>
          rw [takeNLoop_error _ _ _ _ _ _ _ hlt hrs] at h
          exact absurd h (by simp)
        | ok rr =>
          cases rr with
          | exhausted =>
            rw [takeNLoop_exhausted _ _ _ _ _ _ hlt hrs] at h
            simp only [Prod.mk.injEq, Except.ok.injEq] at h
            rw [takeNLoopR_exhausted _ _ _ _ _ hlt (roundStep_agree hrs),
              h.1, h.2]
          | stepped r s' w =>
            exact absurd (roundStep_stepped_sumLen hrs) (by omega)
  | succ N ih =>
    intro streams hN limit results ec log res out h
    cases hlt : jsLtNat results.length limit with
    | false =>
      rw [takeNLoop_stop _ _ _ _ _ hlt] at h
      simp only [Prod.mk.injEq, Except.ok.injEq] at h
      rw [takeNLoopR_stop _ _ _ _ hlt, h.1, h.2]
    | true =>
      cases hrs : roundStep streams with
      | mk rsum evs =>
        cases rsum with
        | error e =>
          rw [takeNLoop_error _ _ _ _ _ _ _ hlt hrs] at h
          exact absurd h (by simp)
        | ok rr =>
          cases rr with
          | exhausted =>
            rw [takeNLoop_exhausted _ _ _ _ _ _ hlt hrs] at h
            simp only [Prod.mk.injEq, Except.ok.injEq] at h
            rw [takeNLoopR_exhausted _ _ _ _ _ hlt (roundStep_agree hrs),
              h.1, h.2]
          | stepped r s' w =>
            have hdec := roundStep_stepped_sumLen hrs
            rcases r with ⟨d, val⟩
            cases d with
            | false =>
              cases val with
              | some v =>
                rw [takeNLoop_append _ _ _ _ _ _ _ _ _ hlt hrs] at h
                rw [takeNLoopR_append _ _ _ _ _ _ _ _ hlt
                  (roundStep_agree hrs)]
                exact ih s' (by omega) limit (results ++ [v]) 0 (log ++ evs)
                  res out h
              | none =>
                by_cases hec : 3 ≤ ec + 1
                · rw [takeNLoop_empty_stall _ _ _ _ _ _ _ _ _ hlt hrs
                    (Or.inr rfl) hec] at h
                  exact absurd h (by simp)
                · rw [takeNLoop_empty_cont _ _ _ _ _ _ _ _ _ hlt hrs
                    (Or.inr rfl) hec] at h
                  rw [takeNLoopR_empty _ _ _ _ _ _ _ _ hlt
                    (roundStep_agree hrs) (Or.inr rfl)]
                  exact ih s' (by omega) limit results (ec + 1) (log ++ evs)
                    res out h
            | true =>
              by_cases hec : 3 ≤ ec + 1
              · rw [takeNLoop_empty_stall _ _ _ _ _ _ _ _ _ hlt hrs
                  (Or.inl rfl) hec] at h
                exact absurd h (by simp)
              · rw [takeNLoop_empty_cont _ _ _ _ _ _ _ _ _ hlt hrs
                  (Or.inl rfl) hec] at h
                rw [takeNLoopR_empty _ _ _ _ _ _ _ _ hlt
                  (roundStep_agree hrs) (Or.inl rfl)]
                exact ih s' (by omega) limit results (ec + 1) (log ++ evs)
                  res out h

/-- Counterexample to claim C10 as stated: on the one-stream configuration
with limit 0, the hardened implementation raises an error while the plain
implementation returns successfully, so the two do not raise errors on the
same inputs. -/
theorem claim10_counterexample :
    (StreamMerger.takeN
      ⟨[TransactionStream.fromList [.bitcoin (some 1)]]⟩ (.num 0)).1 =
      .error ("Invalid limit: " ++ jsLimitToString (.num 0) ++
        ". Must be a positive finite number.") ∧
    takeNR [TransactionStream.fromList [.bitcoin (some 1)]] (.num 0) =
      ([], []) := by
  constructor
  · rfl
  · unfold takeNR
    rw [takeNLoopR_stop _ _ _ _ (by decide)]

/-- Amended claim C10: whenever the hardened takeN returns successfully,
the plain takeN on the same streams and limit returns the same sequence
and issues the same stream operations; the error behaviours differ, as the
plain variant never raises. -/
theorem claim10_amended_agreement :
    ∀ (streams : List TransactionStream) (limit : JSLimit)
      (res : List ResponseTransaction) (out : List Event),
      StreamMerger.takeN ⟨streams⟩ limit = (.ok res, out) →
      takeNR streams limit = (res, out) := by
  intro streams limit res out h
  unfold StreamMerger.takeN at h
  by_cases h1 : (jsLe0 limit || !jsIsFinite limit) = true
  · rw [if_pos h1] at h
    exact absurd h (by simp)
  · rw [if_neg h1] at h
    by_cases h2 : jsGtMax limit = true
    · rw [if_pos h2] at h
      exact absurd h (by simp)
    · rw [if_neg h2] at h
      exact takeNLoop_agree (sumLen streams) streams (le_refl _) limit [] 0 []
        res out h

/-- Witness for the amended claim C10 at a concrete one-stream run. -/
theorem claim10_witness :
    takeNR [TransactionStream.fromList [ResponseTransaction.bitcoin (some 100)]]
      (.num 1) =
      ([ResponseTransaction.bitcoin (some 100)],
       [Event.peek 0 (some (ResponseTransaction.bitcoin (some 100))),
        Event.next 0 ⟨false, some (ResponseTransaction.bitcoin (some 100))⟩]) := by
  apply claim10_amended_agreement
  unfold StreamMerger.takeN
  rw [if_neg (by decide), if_neg (by decide)]
  show takeNLoop
    [TransactionStream.fromList [ResponseTransaction.bitcoin (some 100)]]
    (.num 1) [] 0 [] = _
  rw [takeNLoop_append
    [TransactionStream.fromList [ResponseTransaction.bitcoin (some 100)]]
    [[]] (.num 1) [] 0 [] (ResponseTransaction.bitcoin (some 100)) 0
    [Event.peek 0 (some (ResponseTransaction.bitcoin (some 100))),
     Event.next 0 ⟨false, some (ResponseTransaction.bitcoin (some 100))⟩]
    (by decide) (by rfl)]
  rw [takeNLoop_stop _ _ _ _ _ (by decide)]
  rfl
